import Mathlib

/-!
Shallow embedding of the wwdc-dl repository's content-extraction and
markdown-assembly pipeline (src/wwdc/parser.py and src/wwdc/downloader.py),
together with theorems settling the frozen claims about it.

Python strings are modelled as Lean `String`/`List Char`; Python ints as
`Int` (arbitrary precision, `//` and `%` with positive divisor are Euclidean);
Python dicts with optional fields as structures of `Option` fields; raising
code as `Except String`.
-/

namespace Wwdc

/-! ## Python string primitives -/

/-- The whitespace characters recognised by Python's `str.strip()` and by the
regex class `\s`, restricted to the ASCII range (the non-ASCII Unicode
whitespace characters are outside the modelled fragment). -/
def isPySpace (c : Char) : Bool :=
  c = ' ' || c = '\t' || c = '\n' || c = '\r' || c = '\x0b' || c = '\x0c'

/-- Drop the longest suffix of `l` all of whose characters satisfy `p`. -/
def dropEndWhile (p : Char → Bool) (l : List Char) : List Char :=
  (l.reverse.dropWhile p).reverse

/-- Python `str.strip()` over a character predicate: remove matching
characters from both ends. -/
def pyStripList (p : Char → Bool) (l : List Char) : List Char :=
  dropEndWhile p (l.dropWhile p)

/-- Python `str.strip()` (no arguments): trim surrounding whitespace. -/
def pyStrip (s : String) : String :=
  ⟨pyStripList isPySpace s.data⟩

/-- Decimal digit test. -/
def isDigitChar (c : Char) : Bool :=
  '0' ≤ c && c ≤ '9'

/-- Numeric value of a decimal digit character. -/
def digitVal (c : Char) : Nat :=
  c.toNat - '0'.toNat

/-- Value of a list of decimal digit characters, most significant first. -/
def digitsToNat (ds : List Char) : Nat :=
  ds.foldl (fun a c => 10 * a + digitVal c) 0

/-- Split an optional leading sign off a character list, returning the sign
as `+1` or `-1` and the remainder. -/
def splitSign : List Char → Int × List Char
  | '+' :: rest => (1, rest)
  | '-' :: rest => (-1, rest)
  | rest => (1, rest)

/-- Models Python `int(s)` on a string: optional surrounding whitespace,
optional sign, then one or more decimal digits; anything else raises
`ValueError`, modelled as `none`.  (Underscore digit separators and non-ASCII
digits are outside the modelled fragment.) -/
def pyParseInt (s : String) : Option Int :=
  let cs := pyStripList isPySpace s.data
  let (sign, ds) := splitSign cs
  if ds ≠ [] && ds.all isDigitChar then some (sign * digitsToNat ds) else none

/-- Models Python `int(float(s))`: optional surrounding whitespace, optional
sign, decimal digits with an optional fractional part (`"12"`, `"12.5"`,
`"12."`, `".5"`), truncated toward zero; anything else raises `ValueError`,
modelled as `none`.  (Exponent notation and the special floats `inf`/`nan`
are outside the modelled fragment.) -/
def pyIntFloat (s : String) : Option Int :=
  let cs := pyStripList isPySpace s.data
  let (sign, ds) := splitSign cs
  let (ip, rest) := ds.span isDigitChar
  match rest with
  | [] => if ip ≠ [] then some (sign * digitsToNat ip) else none
  | '.' :: frac =>
    if (ip ≠ [] || frac ≠ []) && frac.all isDigitChar then
      some (sign * digitsToNat ip)
    else none
  | _ => none

/-- Models Python's substring containment `needle in hay` on strings
(`"" in s` is true). -/
def strContainsAux (n : List Char) : List Char → Bool
  | [] => n.isEmpty
  | c :: cs => n.isPrefixOf (c :: cs) || strContainsAux n cs

/-- Python `needle in hay` for strings. -/
def pyIn (needle hay : String) : Bool :=
  strContainsAux needle.data hay.data

/-- Python `s.startswith(prefix)`. -/
def pyStartsWith (pre s : String) : Bool :=
  pre.data.isPrefixOf s.data

/-- Python `s.endswith(suffix)`. -/
def pyEndsWith (suf s : String) : Bool :=
  suf.data.isSuffixOf s.data

/-- Python `s[:-n]` for `n ≤ len(s)`: drop the last `n` characters. -/
def strDropRight (n : Nat) (s : String) : String :=
  ⟨s.data.take (s.data.length - n)⟩

/-! ## Timestamp formatting (`WWDCDownloader._format_timestamp`) -/

/-- Models the Python format spec `f"{n:02d}"`: decimal rendering, padded on
the left with `0` to width 2. -/
def pad2 (n : Int) : String :=
  if 0 ≤ n ∧ n < 10 then "0" ++ toString n else toString n

/-- Embeds `WWDCDownloader._format_timestamp`: parse the seconds string via
`int(float(...))`, then render `f"{total // 60:02d}:{total % 60:02d}"`; the
bare `except:` returns `"00:00"` for any unparsable input. -/
def format_timestamp (seconds : String) : String :=
  match pyIntFloat seconds with
  | some total => pad2 (total / 60) ++ ":" ++ pad2 (total % 60)
  | none => "00:00"

/-- Python `str.rstrip()`: trim trailing whitespace. -/
def pyRstrip (s : String) : String :=
  ⟨dropEndWhile isPySpace s.data⟩

/-! ## Data model

The Python code passes dicts around; a key that may be absent is modelled as
an `Option` field (`dict.get(k)` is the field itself, `dict.get(k, d)` is
`Option.getD`). -/

/-- One code sample dict as built by `WWDCParser._extract_code_samples`:
any subset of the keys `title`, `timestamp`, `time_display`, `code`,
`language` may be present. -/
structure CodeSample where
  title : Option String
  timestamp : Option String
  time_display : Option String
  code : Option String
  language : Option String
deriving DecidableEq, Repr

/-- One transcript entry dict (`{"timestamp": ..., "text": ...}`) as built
by `WWDCParser._extract_transcript`; both keys are always set there. -/
structure TranscriptEntry where
  timestamp : String
  text : String
deriving DecidableEq, Repr

/-- One chapter dict (`{"time": ..., "timestamp": ..., "name": ...}`) as
built by `WWDCParser._extract_chapters`. -/
structure Chapter where
  time : String
  timestamp : String
  name : String
deriving DecidableEq, Repr

/-- One resource dict (`{"title": ..., "url": ...}`) as built by
`WWDCParser._extract_resources`. -/
structure Resource where
  title : String
  url : String
deriving DecidableEq, Repr

/-- The fields of the session-metadata dict consumed by
`_format_content_markdown` (`metadata.get("title", ...)`,
`metadata.get("id", ...)`). -/
structure Metadata where
  title : Option String
  id : Option String
deriving DecidableEq, Repr

/-- The content dict produced by `parse_session_content_async` and consumed
by `_format_content_markdown`; all five keys are always set there. -/
structure ContentRecord where
  description : String
  chapters : List Chapter
  resources : List Resource
  code_samples : List CodeSample
  transcript : List TranscriptEntry
deriving DecidableEq, Repr

/-! ## Timeline Merger (`WWDCDownloader._format_content_markdown`) -/

/-- The `code_by_timestamp` dict: insertion-ordered association list from
integer timestamp to the samples at that timestamp. -/
abbrev Pending := List (Int × List CodeSample)

/-- The raw `timestamp` field of a sample as seen by
`sample.get("timestamp")`, with absence collapsed to `""` (both are falsy). -/
def sampleTs (s : CodeSample) : String :=
  s.timestamp.getD ""

/-- Add one sample to the `code_by_timestamp` dict: create the key's list if
new (at the end, Python dicts preserve insertion order), then append. -/
def addSample (idx : Pending) (t : Int) (s : CodeSample) : Pending :=
  if idx.any (fun p => p.1 == t) then
    idx.map (fun p => if p.1 == t then (p.1, p.2 ++ [s]) else p)
  else idx ++ [(t, [s])]

/-- One iteration of the index-building loop of `_format_content_markdown`:
a sample with a falsy (absent or empty) `timestamp` is skipped; a truthy
timestamp is parsed with `int(...)`, and since that statement is under no
`try`, a parse failure propagates as a `ValueError`. -/
def cbtStep (idx : Pending) (s : CodeSample) : Except String Pending :=
  if sampleTs s ≠ "" then
    match pyParseInt (sampleTs s) with
    | some t => Except.ok (addSample idx t s)
    | none => Except.error "ValueError: invalid literal for int()"
  else Except.ok idx

/-- Embeds the index-building loop of `_format_content_markdown` over all
samples; the `ValueError` propagates out of the whole rendering. -/
def code_by_timestamp (samples : List CodeSample) : Except String Pending :=
  samples.foldlM cbtStep []

/-- Models Python `sorted(code_by_timestamp.keys())`: the keys in ascending
order (stable insertion sort; the keys are distinct so stability is moot). -/
def sortedKeys (pending : Pending) : List Int :=
  List.insertionSort (· ≤ ·) (pending.map Prod.fst)

/-- Dict lookup `code_by_timestamp[t]` (the key is always present at use
sites; a missing key yields `[]`). -/
def lookupGroup (pending : Pending) (t : Int) : List CodeSample :=
  match pending.find? (fun p => p.1 == t) with
  | some p => p.2
  | none => []

/-- The seven lines appended for one flushed code sample. -/
def sampleLines (t : Int) (s : CodeSample) : List String :=
  let timeDisplay :=
    match s.time_display with
    | some td => td
    | none => format_timestamp (toString t)
  ["",
   "### Code Sample: " ++ s.title.getD "Code Sample" ++ " - [" ++ timeDisplay ++ "]",
   "",
   "```" ++ s.language.getD "swift",
   pyRstrip (s.code.getD ""),
   "```",
   ""]

/-- The lines appended for one timestamp group, samples in insertion order. -/
def groupLines (pending : Pending) (t : Int) : List String :=
  (lookupGroup pending t).flatMap (sampleLines t)

/-- `del code_by_timestamp[t]`. -/
def removeKey (pending : Pending) (t : Int) : Pending :=
  pending.filter (fun p => !(p.1 == t))

/-- Embeds the flush loop `for code_ts in sorted(keys): if code_ts <=
current_ts: emit group; del` run before one transcript entry.  The third
component instruments the loop with the list of keys flushed, in flush
order, used to state the ordering invariants; the Python code produces only
the first two components. -/
def flushStep (current : Int) : List Int → Pending → List String × Pending × List Int
  | [], pending => ([], pending, [])
  | k :: ks, pending =>
    if k ≤ current then
      let lns := groupLines pending k
      let (rest, p', flushed) := flushStep current ks (removeKey pending k)
      (lns ++ rest, p', k :: flushed)
    else
      flushStep current ks pending

/-- The flush-eligibility timestamp of a transcript entry: its `timestamp`
string when truthy and parseable by `int(float(...))`; a `ValueError` there
is caught by the surrounding `except ValueError: pass`, skipping the flush. -/
def entryTs (e : TranscriptEntry) : Option Int :=
  if e.timestamp ≠ "" then pyIntFloat e.timestamp else none

/-- The transcript line for one entry: `[MM:SS] text` when the entry's
timestamp is truthy (`_format_timestamp` never returns an empty or falsy
string), bare text otherwise. -/
def transcriptLine (e : TranscriptEntry) : String :=
  let ft := if e.timestamp ≠ "" then format_timestamp e.timestamp else ""
  if ft ≠ "" then "[" ++ ft ++ "] " ++ e.text else e.text

/-- Embeds the transcript walk of `_format_content_markdown`: for each entry
flush the eligible code-sample groups, then emit the transcript line.  The
third component instruments the walk with the per-entry flushed-key lists
(see `flushStep`). -/
def renderEntries : List TranscriptEntry → Pending → List String × Pending × List (List Int)
  | [], pending => ([], pending, [])
  | e :: es, pending =>
    let (flushLns, p1, ks) :=
      match entryTs e with
      | some t => flushStep t (sortedKeys pending) pending
      | none => ([], pending, [])
    let (rest, p2, trace) := renderEntries es p1
    (flushLns ++ [transcriptLine e] ++ rest, p2, ks :: trace)

/-- Embeds the final loop of `_format_content_markdown`: the never-reached
groups, in ascending key order. -/
def tailFlush (pending : Pending) : List String :=
  (sortedKeys pending).flatMap (groupLines pending)

/-- Title/identity header lines of the markdown document. -/
def headerLines (year : String) (md : Metadata) : List String :=
  ["# " ++ md.title.getD "Unknown Session",
   "",
   "**Session " ++ md.id.getD "" ++ "** - WWDC " ++ year,
   ""]

/-- Description section (omitted when the description is falsy). -/
def descriptionLines (c : ContentRecord) : List String :=
  if c.description ≠ "" then ["## Description", c.description, ""] else []

/-- Chapters section (omitted when there are no chapters). -/
def chapterLines (c : ContentRecord) : List String :=
  if c.chapters ≠ [] then
    "## Chapters" :: (c.chapters.map (fun ch => "- " ++ ch.time ++ " - " ++ ch.name) ++ [""])
  else []

/-- Resources section (omitted when there are no resources). -/
def resourceLines (c : ContentRecord) : List String :=
  if c.resources ≠ [] then
    "## Resources" :: (c.resources.map (fun r => "- [" ++ r.title ++ "](" ++ r.url ++ ")") ++ [""])
  else []

/-- The transcript section: heading, interleaved walk, then the tail flush;
emitted whenever there is a transcript or there are code samples.  The index
is only built when `code_samples` is truthy (nonempty). -/
def transcriptSectionLines (c : ContentRecord) : Except String (List String) :=
  if c.transcript ≠ [] ∨ c.code_samples ≠ [] then do
    let idx ← if c.code_samples ≠ [] then code_by_timestamp c.code_samples else pure []
    let (body, pFin, _) := renderEntries c.transcript idx
    pure ("## Transcript" :: "" :: (body ++ tailFlush pFin))
  else pure []

/-- Embeds `WWDCDownloader._format_content_markdown` up to the final
`"\n".join(lines)`: the full `lines` list. -/
def format_content_lines (year : String) (md : Metadata) (c : ContentRecord) :
    Except String (List String) := do
  let ts ← transcriptSectionLines c
  pure (headerLines year md ++ descriptionLines c ++ chapterLines c ++
        resourceLines c ++ ts)

/-- Embeds `WWDCDownloader._format_content_markdown`: the rendered markdown
document, or the uncaught `ValueError` from a malformed sample timestamp. -/
def format_content_markdown (year : String) (md : Metadata) (c : ContentRecord) :
    Except String String :=
  (format_content_lines year md c).map (String.intercalate "\n")

/-! ## Video URL classification (`WWDCParser._extract_video_urls`) -/

/-- The `urls` dict of `_extract_video_urls`. -/
structure VideoUrls where
  hd : Option String
  sd : Option String
  hls : Option String
  title : Option String
deriving DecidableEq, Repr

/-- One iteration of the `finditer` classification loop: `_hd.mp4` and
`_sd.mp4` assignments overwrite unconditionally; `hls` is assigned only
while still falsy (it is only ever set to a nonempty match, so falsy means
`None`). -/
def classifyVideoUrl (urls : VideoUrls) (u : String) : VideoUrls :=
  if pyIn "_hd.mp4" u then { urls with hd := some u }
  else if pyIn "_sd.mp4" u then { urls with sd := some u }
  else if pyIn ".m3u8" u && urls.hls.isNone then { urls with hls := some u }
  else urls

/-- Embeds the classification loop of `_extract_video_urls` over the list of
video-pattern regex matches in document order.  The preceding `og:title`
extraction is a separate regex over the raw HTML, modelled by the `title`
argument, which the loop never touches. -/
def extract_video_urls (title : Option String) (ms : List String) : VideoUrls :=
  ms.foldl classifyVideoUrl ⟨none, none, none, title⟩

/-! ## HTML extractors (`WWDCParser._extract_*`)

BeautifulSoup queries are modelled by their results: each extractor's input
type has one `Option` field per `find`/`find_all` the code performs, `none`
meaning the element is absent from the page. -/

/-- Input to `_extract_description`: the details panel
(`li[data-supplement-id=details]`, inner: text of its first `<p>` if any)
and the `meta[name=description]` tag (inner: its `content` attribute). -/
structure DescDoc where
  details_p : Option (Option String)
  meta_description : Option (Option String)
deriving DecidableEq, Repr

/-- Embeds `_extract_description`: the details panel's first paragraph when
both exist, else the meta description's `content` (defaulted to `""`), else
`""`; it never fails. -/
def extract_description (d : DescDoc) : String :=
  match d.details_p with
  | some (some txt) => txt
  | _ =>
    match d.meta_description with
    | some content => content.getD ""
    | none => ""

/-- Models Python `re.match(r"(\d+:\d+)\s*-\s*(.+)", s)` on a chapter item's
text: leading `digits:digits`, optional whitespace, `-`, optional
whitespace, then a nonempty remainder (`.` does not cross a newline, so the
name is the remainder up to the first newline, which must be nonempty). -/
def matchChapterText (s : String) : Option (String × String) :=
  let (d1, r1) := s.data.span isDigitChar
  match d1, r1 with
  | _ :: _, ':' :: r2 =>
    let (d2, r3) := r2.span isDigitChar
    match d2, r3.dropWhile isPySpace with
    | _ :: _, '-' :: r4 =>
      let name := (r4.dropWhile isPySpace).takeWhile (fun c => c ≠ '\n')
      if name ≠ [] then
        some (⟨d1 ++ ':' :: d2⟩, ⟨name⟩)
      else none
    | _, _ => none
  | _, _ => none

/-- Models Python `re.search(r"\?time=(\d+)", href)`: the digit run after
the first occurrence of `?time=` that is followed by at least one digit. -/
def searchTimeParam : List Char → Option String
  | [] => none
  | c :: cs =>
    if "?time=".data.isPrefixOf (c :: cs) then
      match (c :: cs).drop 6 with
      | d :: ds =>
        if isDigitChar d then some ⟨(d :: ds).takeWhile isDigitChar⟩
        else searchTimeParam cs
      | [] => searchTimeParam cs
    else searchTimeParam cs

/-- Input to `_extract_chapters`, one per `<a href=...>` in the document:
the href and the text of the nearest ancestor `<li>` (if any). -/
structure ChapterLink where
  href : String
  parent_li_text : Option String
deriving DecidableEq, Repr

/-- Embeds `_extract_chapters`: keep links whose href has a `?time=` query,
whose ancestor `<li>` exists, and whose `<li>` text matches
`"<time> - <name>"`; the stored `timestamp` is the `?time=` parameter (or
`""` when the search fails, which cannot happen once `?time=` passed the
containment test followed by the match). -/
def extract_chapters (links : List ChapterLink) : List Chapter :=
  links.filterMap (fun link =>
    if pyIn "?time=" link.href then
      match link.parent_li_text with
      | some liText =>
        match matchChapterText liText with
        | some (timeStr, name) =>
          some ⟨timeStr, (searchTimeParam link.href.data).getD "", name⟩
        | none => none
      | none => none
    else none)

/-- ASCII case mapping of Python `str.lower()`; characters outside the ASCII
range (whose Unicode case mappings, including the context-sensitive final
sigma, are outside the modelled fragment) are left unchanged. -/
def pyLowerChar (c : Char) : Char :=
  if 'A' ≤ c ∧ c ≤ 'Z' then Char.ofNat (c.toNat + 32) else c

/-- Python `str.lower()` (ASCII fragment, see `pyLowerChar`). -/
def pyLower (s : String) : String :=
  ⟨s.data.map pyLowerChar⟩

/-- Models `urllib.parse.urljoin(base, href)` for the href shapes on these
pages: an absolute `http(s)` URL is returned as is, a site-absolute path is
appended to the base origin (other relative-reference forms are outside the
modelled fragment). -/
def pyUrljoin (base href : String) : String :=
  if pyStartsWith "http" href then href
  else if pyStartsWith "/" href then base ++ href
  else base ++ "/" ++ href

/-- The base origin `WWDCParser.BASE_URL`. -/
def baseUrl : String := "https://developer.apple.com"

/-- Input to `_extract_resources`, one per `<a href=...>` in the whole
document: `link.get("href", "")` and `link.get_text(strip=True)`. -/
structure Anchor where
  href : String
  text : String
deriving DecidableEq, Repr

/-- The fixed keyword list of `_extract_resources`. -/
def resourceKeywords : List String :=
  ["docs.swift.org", "swift.org/migration", "developer.apple.com/documentation",
   "guide", "documentation", "reference"]

/-- The keyword test of `_extract_resources`: some keyword occurs in the
lowercased href or in the lowercased text. -/
def anchorKeywordHit (a : Anchor) : Bool :=
  resourceKeywords.any (fun k => pyIn k (pyLower a.href) || pyIn k (pyLower a.text))

/-- The resolved URL of a resource anchor:
`href if href.startswith("http") else urljoin(BASE_URL, href)`. -/
def resolveResourceUrl (href : String) : String :=
  if pyStartsWith "http" href then href else pyUrljoin baseUrl href

/-- The loop body of `_extract_resources`, carrying the `seen_urls` set. -/
def extract_resources_go : List Anchor → List String → List Resource
  | [], _ => []
  | a :: rest, seen =>
    if a.text = "" || pyIn "Video" a.text || pyIn ".mp4" a.href then
      extract_resources_go rest seen
    else if anchorKeywordHit a then
      let url := resolveResourceUrl a.href
      if !(seen.contains url) && a.text ≠ "" then
        ⟨a.text, url⟩ :: extract_resources_go rest (url :: seen)
      else
        extract_resources_go rest seen
    else
      extract_resources_go rest seen

/-- Embeds `_extract_resources` over every anchor of the document (the code
scans `soup.find_all("a", href=True)`, not a resources list). -/
def extract_resources (anchors : List Anchor) : List Resource :=
  extract_resources_go anchors []

/-- Fragment of Python `html.unescape` covering the entities occurring on
these pages (`&lt; &gt; &quot; &#x27; &amp;`), leftmost first as the real
function does. -/
def unescapeChars : List Char → List Char
  | [] => []
  | '&' :: 'l' :: 't' :: ';' :: rest => '<' :: unescapeChars rest
  | '&' :: 'g' :: 't' :: ';' :: rest => '>' :: unescapeChars rest
  | '&' :: 'q' :: 'u' :: 'o' :: 't' :: ';' :: rest => '"' :: unescapeChars rest
  | '&' :: '#' :: 'x' :: '2' :: '7' :: ';' :: rest => '\'' :: unescapeChars rest
  | '&' :: 'a' :: 'm' :: 'p' :: ';' :: rest => '&' :: unescapeChars rest
  | c :: rest => c :: unescapeChars rest

/-- Python `html.unescape` (entity fragment, see `unescapeChars`). -/
def htmlUnescape (s : String) : String :=
  ⟨unescapeChars s.data⟩

/-- The "jump to time" control of one code-sample container: its text, its
`data-start-time` attribute, and — when its parent is a `<p>` — the
concatenation of that parent's string children preceding the control. -/
structure TimeLink where
  text : String
  data_start_time : Option String
  parent_p_text : Option String
deriving DecidableEq, Repr

/-- One `li.sample-code-main-container`: its optional
`a.jump-to-time-sample` control and, when a `pre.code-source` with an inner
`<code>` exists, that code element's raw text. -/
structure CodeContainer where
  time_link : Option TimeLink
  pre_code : Option String
deriving DecidableEq, Repr

/-- Input to `_extract_code_samples`: the code-samples panel (any of the
three alternative selectors), carrying its sample containers in document
order, or `none` when no selector matched. -/
structure CodeDoc where
  code_section : Option (List CodeContainer)
deriving DecidableEq, Repr

/-- Builds the `sample_data` dict for one container, as in
`_extract_code_samples`: title/timestamp/time-display from the time link
(the time display is the stripped preceding text with a trailing `" -"`
separator removed), code from the code element with entities decoded,
language defaulted to `"swift"`. -/
def buildCodeSample (cont : CodeContainer) : CodeSample :=
  let base : CodeSample := ⟨none, none, none, none, none⟩
  let s1 :=
    match cont.time_link with
    | some tl =>
      let timeText :=
        match tl.parent_p_text with
        | some raw =>
          let t := pyStrip raw
          if pyEndsWith " -" t then pyStrip (strDropRight 2 t) else t
        | none => ""
      { base with
          title := some tl.text,
          timestamp := some (tl.data_start_time.getD ""),
          time_display := some timeText }
    | none => base
  match cont.pre_code with
  | some codeText =>
    { s1 with code := some (htmlUnescape codeText), language := some "swift" }
  | none => s1

/-- The final guard of the container loop:
`if "code" in sample_data and sample_data["code"].strip()`. -/
def keepSample (s : CodeSample) : Bool :=
  s.code.isSome && pyStrip (s.code.getD "") ≠ ""

/-- Embeds `_extract_code_samples`: `[]` when no panel selector matches;
otherwise each container's sample dict, kept only when it has a code body
that is nonempty after stripping (the conditional append is written as
`filter` over `map`). -/
def extract_code_samples (d : CodeDoc) : List CodeSample :=
  match d.code_section with
  | none => []
  | some containers => (containers.map buildCodeSample).filter keepSample

/-- One `span.sentence` of the transcript section: the `data-start` value of
an inner `span[data-start]` when one exists, and the sentence text. -/
structure Sentence where
  data_start : Option String
  text : String
deriving DecidableEq, Repr

/-- Input to `_extract_transcript`: the `section#transcript-content` element
carrying its sentence spans, or `none` when absent. -/
structure TranscriptDoc where
  transcript_section : Option (List Sentence)
deriving DecidableEq, Repr

/-- Embeds `_extract_transcript`: `[]` when the section is absent; otherwise
one entry per sentence that has a `data-start` span and nonempty text. -/
def extract_transcript (d : TranscriptDoc) : List TranscriptEntry :=
  match d.transcript_section with
  | none => []
  | some sents =>
    sents.filterMap (fun s =>
      match s.data_start with
      | some ts => if s.text ≠ "" then some ⟨ts, s.text⟩ else none
      | none => none)

/-! ## Topic Index (`WWDCParser._get_sessions_for_topic_async`,
`get_all_sessions_async`) -/

/-- One session record dict as built by the topic-page scan. -/
structure SessionRec where
  id : String
  year : String
  title : String
  url : String
  topic : String
deriving DecidableEq, Repr

/-- Models `re.match(r"/videos/play/wwdc(\d{4})/(\d+)/", href)`: the literal
prefix, exactly four digits (year), `/`, one or more digits (session id),
`/`; returns the two captured groups. -/
def matchSessionHref (href : String) : Option (String × String) :=
  let cs := href.data
  if "/videos/play/wwdc".data.isPrefixOf cs then
    let rest := cs.drop 17
    let y := rest.take 4
    if y.length = 4 && y.all isDigitChar then
      match rest.drop 4 with
      | '/' :: r2 =>
        let (sid, r3) := r2.span isDigitChar
        match sid, r3 with
        | _ :: _, '/' :: _ => some (⟨y⟩, ⟨sid⟩)
        | _, _ => none
      | _ => none
    else none
  else none

/-- One `<a href=...>` of a topic listing page: its href and its resolved
display title (the ancestor-heading walk, falling back to the link's own
text, is abstracted to this one field). -/
structure PageLink where
  href : String
  title : String
deriving DecidableEq, Repr

/-- The link-scan loop of `_get_sessions_for_topic_async`: one session
record per link whose href matches the session-URL pattern. -/
def parseTopicLinks (topic : String) (links : List PageLink) : List SessionRec :=
  links.filterMap (fun l =>
    (matchSessionHref l.href).map (fun yid =>
      ⟨yid.2, yid.1, l.title, pyUrljoin baseUrl l.href, topic⟩))

/-- Outcome of one topic-page fetch attempt: an HTTP response with a status
and (when parsed) the page's links, or an exception raised by the fetch or
parse — i.e. before any session has been accumulated. -/
inductive FetchOutcome where
  | ok (status : Nat) (links : List PageLink)
  | exn
deriving DecidableEq, Repr

/-- The parser's `_sessions_cache` field (a dict keyed by
`f"{topic}_{year}"`). -/
structure ParserState where
  sessions_cache : List (String × List SessionRec)
deriving DecidableEq, Repr

/-- Dict membership/lookup in the sessions cache. -/
def cacheLookup (st : ParserState) (k : String) : Option (List SessionRec) :=
  (st.sessions_cache.find? (fun p => p.1 == k)).map Prod.snd

/-- Dict assignment `self._sessions_cache[key] = v`. -/
def cacheInsert (st : ParserState) (k : String) (v : List SessionRec) : ParserState :=
  if st.sessions_cache.any (fun p => p.1 == k) then
    ⟨st.sessions_cache.map (fun p => if p.1 == k then (p.1, v) else p)⟩
  else
    ⟨st.sessions_cache ++ [(k, v)]⟩

/-- Embeds `_get_sessions_for_topic_async`: return the cached list when the
`(topic, year)` key is present; otherwise fetch.  An exception falls through
the `except` block to the cache assignment, caching `[]`; a non-200 status
returns `[]` early, *before* the assignment, leaving the cache unchanged.
The `Bool` instruments the function with whether a fetch was attempted
(`false` on the cache-hit path); the Python code produces only the list. -/
def get_sessions_for_topic (year topic : String) (outcome : FetchOutcome)
    (st : ParserState) : List SessionRec × ParserState × Bool :=
  let key := topic ++ "_" ++ year
  match cacheLookup st key with
  | some ss => (ss, st, false)
  | none =>
    match outcome with
    | .exn => ([], cacheInsert st key [], true)
    | .ok status links =>
      if status ≠ 200 then ([], st, true)
      else
        let ss := parseTopicLinks topic links
        (ss, cacheInsert st key ss, true)

/-- Embeds the collection loop of `get_all_sessions_async`: `f topic` is the
list `_get_sessions_for_topic_async(topic)` yields for each topic page; the
`seen_sessions` set is the second accumulator component.  (The
session-to-topic mapping the method builds first is never used by this
loop.)  A session is appended only if its year matches and its id is unseen;
`sess["topic"] = topic` is the record update. -/
def get_all_sessions (year : String) (topics : List String)
    (f : String → List SessionRec) : List SessionRec :=
  (topics.foldl
    (fun (acc : List SessionRec × List String) topic =>
      (f topic).foldl
        (fun acc2 sess =>
          if sess.year == year && !(acc2.2.contains sess.id) then
            (acc2.1 ++ [{ sess with topic := topic }], acc2.2 ++ [sess.id])
          else acc2)
        acc)
    ([], [])).1

/-! ## Filename sanitizer (`WWDCDownloader._sanitize_filename`) -/

/-- Models `unicodedata.normalize("NFKD", s)`.  NFKD is the identity on
ASCII strings; the decompositions of non-ASCII characters are outside the
modelled fragment (the identity is used there too), so theorems about the
sanitizer carry an ASCII hypothesis. -/
def pyNFKD (s : String) : String := s

/-- The exact character class of the quote-stripping regex
`[''`''‛\"″‟''ʻʼ']` in `_sanitize_filename` (deduplicated: `'`, `` ` ``,
`"`, U+201B, U+2033, U+201F, U+02BB, U+02BC). -/
def isQuoteChar (c : Char) : Bool :=
  c = '\'' || c = '`' || c = '"' || c = '‛' || c = '″' ||
  c = '‟' || c = 'ʻ' || c = 'ʼ'

/-- The character class of the regex `[\s\-–—_]` (whitespace, hyphen,
en dash U+2013, em dash U+2014, underscore). -/
def isWsDash (c : Char) : Bool :=
  isPySpace c || c = '-' || c = '–' || c = '—' || c = '_'

/-- The character class of the regex `[,:;!?]`. -/
def isPunct (c : Char) : Bool :=
  c = ',' || c = ':' || c = ';' || c = '!' || c = '?'

/-- The character class of the regex `[<>:"/\\|?*()[\]{}]`. -/
def isInvalidFs (c : Char) : Bool :=
  c = '<' || c = '>' || c = ':' || c = '"' || c = '/' || c = '\\' ||
  c = '|' || c = '?' || c = '*' || c = '(' || c = ')' || c = '[' ||
  c = ']' || c = '\x7b' || c = '\x7d'

/-- Models `re.sub(r"[cls]+", "-", s)`: each maximal run of class
characters is replaced by a single hyphen.  `inRun` records whether the
previous character belonged to the current run. -/
def runReplace (cls : Char → Bool) (inRun : Bool) : List Char → List Char
  | [] => []
  | c :: cs =>
    if cls c then
      if inRun then runReplace cls true cs
      else '-' :: runReplace cls true cs
    else c :: runReplace cls false cs

/-- The trim class of `filename.strip("-. ")`. -/
def isStripSet (c : Char) : Bool :=
  c = '-' || c = '.' || c = ' '

/-- Models Python `str.rfind(c)`: the largest index holding `c`, or `-1`. -/
def pyRFindChar (c : Char) : List Char → Int
  | [] => -1
  | x :: xs =>
    let r := pyRFindChar c xs
    if r ≥ 0 then r + 1
    else if x = c then 0 else -1

/-- The length cap of `_sanitize_filename`: over 100 characters, cut to 100
and prefer the last hyphen boundary when it lies after index 80. -/
def truncate100 (l : List Char) : List Char :=
  if l.length > 100 then
    let truncated := l.take 100
    let lastHyphen := pyRFindChar '-' truncated
    if lastHyphen > 80 then truncated.take lastHyphen.toNat else truncated
  else l

/-- The sanitizer pipeline before truncation, in source order: lowercase
(after the NFKD step, which the model applies at the `String` wrapper),
strip quotes, collapse whitespace/dash/underscore runs to `-`, collapse
punctuation runs to `-`, drop invalid filesystem characters, collapse
hyphen runs, trim `-`, `.`, ` ` from both ends. -/
def sanitizeSteps (l : List Char) : List Char :=
  let l1 := l.map pyLowerChar
  let l2 := l1.filter (fun c => !isQuoteChar c)
  let l3 := runReplace isWsDash false l2
  let l4 := runReplace isPunct false l3
  let l5 := l4.filter (fun c => !isInvalidFs c)
  let l6 := runReplace (fun c => c = '-') false l5
  pyStripList isStripSet l6

/-- Embeds `WWDCDownloader._sanitize_filename`. -/
def sanitize_filename (s : String) : String :=
  ⟨truncate100 (sanitizeSteps (pyNFKD s).data)⟩

/-! ## Specification-side definitions

These definitions formalise the *spec's words* (first/last match, first-seen
deduplication, eligible flush keys) and are compared with the embedded code
in the claim theorems. -/

/-- Classifier predicate for the `hd` slot: the match contains `_hd.mp4`. -/
def hdPred (u : String) : Bool := pyIn "_hd.mp4" u

/-- Classifier predicate for the `sd` slot: reaches the `elif` and contains
`_sd.mp4`. -/
def sdPred (u : String) : Bool := !pyIn "_hd.mp4" u && pyIn "_sd.mp4" u

/-- Classifier predicate for the `hls` slot: reaches the second `elif` and
contains `.m3u8`. -/
def hlsPred (u : String) : Bool :=
  !pyIn "_hd.mp4" u && !pyIn "_sd.mp4" u && pyIn ".m3u8" u

/-- The last element satisfying `p`, if any. -/
def lastMatch (p : String → Bool) : List String → Option String
  | [] => none
  | u :: us => (lastMatch p us).or (if p u then some u else none)

/-- The first element satisfying `p`, if any. -/
def firstMatch (p : String → Bool) : List String → Option String
  | [] => none
  | u :: us => if p u then some u else firstMatch p us

/-- First-occurrence deduplication by key, given the set of already-seen
keys: keeps an element only when its key is new. -/
def dedupByKeyFirst {α : Type} (key : α → String) : List String → List α → List α
  | _, [] => []
  | seen, x :: xs =>
    if seen.contains (key x) then dedupByKeyFirst key seen xs
    else x :: dedupByKeyFirst key (key x :: seen) xs

/-- First-occurrence deduplication carrying both the kept elements and the
final seen set, with the seen set appended at the end exactly as the
embedded loops do. -/
def dedupRun {α : Type} (key : α → String) : List String → List α → List α × List String
  | seen, [] => ([], seen)
  | seen, x :: xs =>
    if seen.contains (key x) then dedupRun key seen xs
    else
      let r := dedupRun key (seen ++ [key x]) xs
      (x :: r.1, r.2)

/-- The year-filtered, topic-tagged candidates contributed by one topic
page. -/
def candTopic (year topic : String) (ss : List SessionRec) : List SessionRec :=
  (ss.filter (fun s => s.year == year)).map (fun s => { s with topic := topic })

/-- The year-filtered, topic-tagged session candidates listed across all
topic pages, in page order. -/
def allSessionsCandidates (year : String) (topics : List String)
    (f : String → List SessionRec) : List SessionRec :=
  topics.flatMap (fun t =>
    ((f t).filter (fun s => s.year == year)).map (fun s => { s with topic := t }))

/-- The spec's description of `allSessions(year)`: the deduplicated (by id,
first occurrence wins) union of the year-filtered topic listings. -/
def allSessionsSpec (year : String) (topics : List String)
    (f : String → List SessionRec) : List SessionRec :=
  dedupByKeyFirst (fun s => s.id) [] (allSessionsCandidates year topics f)

/-- The filter of `_extract_resources` as one predicate: nonempty text, no
`"Video"` in the text, no `".mp4"` in the href, and a keyword hit. -/
def resourcePass (a : Anchor) : Bool :=
  !(a.text = "" || pyIn "Video" a.text || pyIn ".mp4" a.href) && anchorKeywordHit a

/-- The resource records of the passing anchors, before deduplication. -/
def resourceCandidates (anchors : List Anchor) : List Resource :=
  (anchors.filter resourcePass).map (fun a => ⟨a.text, resolveResourceUrl a.href⟩)

/-- The spec's description of resource extraction: passing anchors,
deduplicated by resolved URL, first occurrence wins. -/
def resourcesSpec (anchors : List Anchor) : List Resource :=
  dedupByKeyFirst (fun r => r.url) [] (resourceCandidates anchors)

/-- The spec's "every still-pending group whose timestamp is ≤ the entry's":
the eligible keys, in ascending order. -/
def eligibleKeys (t : Int) (pending : Pending) : List Int :=
  (sortedKeys pending).filter (fun k => decide (k ≤ t))

/-- The spec's pending-set evolution: an entry with a parsed timestamp `t`
removes every group with key ≤ `t`; an entry without one removes nothing. -/
def stepPending (e : TranscriptEntry) (pending : Pending) : Pending :=
  match entryTs e with
  | some t => pending.filter (fun p => decide (t < p.1))
  | none => pending

/-- Iterated `stepPending` over a transcript. -/
def iterStepPending : List TranscriptEntry → Pending → Pending
  | [], p => p
  | e :: es, p => iterStepPending es (stepPending e p)

/-- The spec's per-entry flush contract: at each entry the flushed keys are
exactly the eligible ones (in ascending order) when the entry's timestamp
parses, and nothing is flushed otherwise; the pending set then evolves by
`stepPending`. -/
def FlushSpec : List TranscriptEntry → Pending → List (List Int) → Prop
  | [], _, [] => True
  | e :: es, pending, ks :: kss =>
    (∀ t, entryTs e = some t → ks = eligibleKeys t pending) ∧
    (entryTs e = none → ks = []) ∧
    FlushSpec es (stepPending e pending) kss
  | _, _, _ => False

/-! ## Concrete inputs used by counterexamples and witnesses -/

/-- Two distinct URLs of the shape matched by the video-URL regex, both
containing `_hd.mp4`. -/
def hdUrl1 : String :=
  "https://devstreaming-cdn.apple.com/videos/wwdc/2025/280/sep/downloads/wwdc2025-280_hd.mp4"

/-- See `hdUrl1`. -/
def hdUrl2 : String :=
  "https://devstreaming-cdn.apple.com/videos/wwdc/2025/280/alt/downloads/wwdc2025-280_hd.mp4"

/-- A code sample whose `timestamp` is nonempty but not parseable as an
integer. -/
def c2BadSample : CodeSample :=
  ⟨some "X", some "abc", none, some "let x = 1", some "swift"⟩

/-- A code sample whose `timestamp` is present but empty (falsy). -/
def c2NoTsSample : CodeSample :=
  ⟨some "Y", some "", none, some "let y = 2", none⟩

/-- The sessions each topic page lists in the C5 counterexample: the same
session id appears under both `"t1"` and `"t2"`. -/
def c5Pages (t : String) : List SessionRec :=
  [⟨"101", "2025", "Shared Session", "/videos/play/wwdc2025/101/", t⟩]

/-- An anchor whose href contains a keyword only up to letter case. -/
def c10Anchor : Anchor :=
  ⟨"https://DOCS.SWIFT.ORG/x", "foo"⟩

/-- A 105-character ASCII title: 99 `a`s, a dot, five `b`s.  Sanitizing
truncates it to the first 100 characters, leaving a trailing dot. -/
def c6Input : String :=
  ⟨List.replicate 99 'a' ++ '.' :: List.replicate 5 'b'⟩

/-- The C1 test record: transcript at seconds 0, 70, 80, 280, 290 and code
samples at 75 and 283 (the repository's own formatter test data). -/
def c1Content : ContentRecord :=
  { description := ""
    chapters := []
    resources := []
    code_samples :=
      [⟨some "TextEditor and String", some "75", some "1:15", some "let a = 1", some "swift"⟩,
       ⟨some "AttributedString Basics", some "283", some "4:43", some "let b = 2", some "swift"⟩]
    transcript :=
      [⟨"0", "Welcome."⟩, ⟨"70", "Example."⟩, ⟨"80", "This is how it works."⟩,
       ⟨"280", "Now AttributedString."⟩, ⟨"290", "Very powerful."⟩] }

/-- Metadata for the C1 test record. -/
def c1Md : Metadata := ⟨some "Test Session", some "280"⟩

/-- The rendered lines of the C1 test record. -/
def c1Lines : List String :=
  (format_content_lines "2025" c1Md c1Content).toOption.getD []

/-- The timestamp index built from the C1 test record's samples. -/
def c1Idx : Pending :=
  [(75, [⟨some "TextEditor and String", some "75", some "1:15", some "let a = 1", some "swift"⟩]),
   (283, [⟨some "AttributedString Basics", some "283", some "4:43", some "let b = 2", some "swift"⟩])]

/-! ## Theorems -/

/-- C3 counterexample: at 3661 seconds (over one hour) the formatter renders
`"61:01"`, not an hour-inclusive `"1:01:01"`-style form. -/
theorem c3_counterexample :
    format_timestamp "3661" = "61:01" ∧ ("61:01" : String) ≠ "1:01:01" := by
  constructor
  · decide
  · decide

/-- C3 (amended): `_format_timestamp` always renders `MM:SS` with both
fields zero-padded to two digits, where the minutes field is the full
`total // 60` — under one hour that is a value below 60, at or above one
hour it is 60 or more (there is no hour-inclusive `HH:MM:SS` form); any
unparsable input yields the zero default `"00:00"` and never raises.
In particular 75 → `"01:15"`, 3661 → `"61:01"`, `"abc"` → `"00:00"`. -/
theorem c3_format_timestamp :
    (∀ s t, pyIntFloat s = some t →
      format_timestamp s = pad2 (t / 60) ++ ":" ++ pad2 (t % 60) ∧
      (0 ≤ t → t < 3600 → t / 60 < 60) ∧
      (3600 ≤ t → 60 ≤ t / 60)) ∧
    (∀ s, pyIntFloat s = none → format_timestamp s = "00:00") ∧
    format_timestamp "75" = "01:15" ∧
    format_timestamp "3661" = "61:01" ∧
    format_timestamp "abc" = "00:00" := by
  refine ⟨?_, ?_, by decide, by decide, by decide⟩
  · intro s t h
    refine ⟨by simp [format_timestamp, h], by omega, by omega⟩
  · intro s h
    simp [format_timestamp, h]

/-- Witness for `c3_format_timestamp` at the concrete input `"75"`. -/
theorem c3_format_timestamp_witness :
    pyIntFloat "75" = some 75 ∧
    format_timestamp "75" = pad2 ((75 : Int) / 60) ++ ":" ++ pad2 ((75 : Int) % 60) :=
  ⟨by decide, (c3_format_timestamp.1 "75" 75 (by decide)).1⟩

/-- Lemma: the video-URL classification fold, from an arbitrary starting
state: `hd` and `sd` end up holding the *last* match of their predicates
(falling back to the start state), `hls` keeps the start value or else the
*first* match, and the title is untouched. -/
lemma classify_foldl (ms : List String) : ∀ st : VideoUrls,
    ms.foldl classifyVideoUrl st =
      ⟨(lastMatch hdPred ms).or st.hd, (lastMatch sdPred ms).or st.sd,
       st.hls.or (firstMatch hlsPred ms), st.title⟩ := by
  induction ms with
  | nil => intro st; simp [lastMatch, firstMatch]
  | cons u us ih =>
    intro st
    rw [List.foldl_cons, ih]
    rcases st with ⟨hd, sd, hls, title⟩
    by_cases h1 : pyIn "_hd.mp4" u
    · simp [classifyVideoUrl, lastMatch, firstMatch, hdPred, sdPred, hlsPred, h1,
        Option.or_assoc]
    · by_cases h2 : pyIn "_sd.mp4" u
      · simp [classifyVideoUrl, lastMatch, firstMatch, hdPred, sdPred, hlsPred, h1, h2,
          Option.or_assoc]
      · by_cases h3 : pyIn ".m3u8" u
        · cases hls with
          | none =>
            simp [classifyVideoUrl, lastMatch, firstMatch, hdPred, sdPred, hlsPred,
              h1, h2, h3, Option.or_assoc]
          | some v =>
            simp [classifyVideoUrl, lastMatch, firstMatch, hdPred, sdPred, hlsPred,
              h1, h2, h3, Option.or_assoc]
        · simp [classifyVideoUrl, lastMatch, firstMatch, hdPred, sdPred, hlsPred,
            h1, h2, h3, Option.or_assoc]

/-- C4 counterexample: with two distinct `_hd.mp4` matches in document
order, the returned `hd` URL is the *second* (last) one, refuting
"the returned hd URL is the first `_hd.mp4` match". -/
theorem c4_counterexample :
    (extract_video_urls none [hdUrl1, hdUrl2]).hd = some hdUrl2 ∧ hdUrl1 ≠ hdUrl2 := by
  constructor
  · decide
  · decide

/-- C4 (amended): in `_extract_video_urls` the *last* `_hd.mp4` match wins
the `hd` slot and the *last* `_sd.mp4` match (among matches without
`_hd.mp4`) wins the `sd` slot, because each assignment overwrites; only the
`hls` slot retains the *first* `.m3u8` match (among matches classified as
neither hd nor sd). -/
theorem c4_video_url_classification (title : Option String) (ms : List String) :
    extract_video_urls title ms =
      ⟨lastMatch hdPred ms, lastMatch sdPred ms, firstMatch hlsPred ms, title⟩ := by
  rw [extract_video_urls, classify_foldl]
  simp

/-- Witness for `c4_video_url_classification` at a concrete match list. -/
theorem c4_video_url_classification_witness :
    extract_video_urls none [hdUrl1, hdUrl2] =
      ⟨lastMatch hdPred [hdUrl1, hdUrl2], lastMatch sdPred [hdUrl1, hdUrl2],
       firstMatch hlsPred [hdUrl1, hdUrl2], none⟩ :=
  c4_video_url_classification none [hdUrl1, hdUrl2]

/-- C7: each extractor is a total function (it cannot raise), and a missing
anchor element yields the empty result: a page with no details panel and no
meta description has an empty description (when the details panel is absent
but a meta description exists, the documented meta fallback is returned
instead); no links yields no chapters and no resources; a missing
code-samples panel yields no samples; a missing transcript section yields
no transcript entries. -/
theorem c7_missing_anchor_empty :
    (∀ d : DescDoc, d.details_p = none → d.meta_description = none →
      extract_description d = "") ∧
    extract_chapters [] = [] ∧
    extract_resources [] = [] ∧
    (∀ d : CodeDoc, d.code_section = none → extract_code_samples d = []) ∧
    (∀ d : TranscriptDoc, d.transcript_section = none → extract_transcript d = []) := by
  refine ⟨?_, rfl, rfl, ?_, ?_⟩
  · rintro ⟨dp, md⟩ h1 h2
    simp only at h1 h2
    subst h1; subst h2
    rfl
  · rintro ⟨sec⟩ h
    simp only at h
    subst h; rfl
  · rintro ⟨sec⟩ h
    simp only at h
    subst h; rfl

/-- Witness for `c7_missing_anchor_empty` at concrete empty documents. -/
theorem c7_missing_anchor_empty_witness :
    extract_description ⟨none, none⟩ = "" ∧ extract_code_samples ⟨none⟩ = [] ∧
    extract_transcript ⟨none⟩ = [] :=
  ⟨c7_missing_anchor_empty.1 ⟨none, none⟩ rfl rfl,
   c7_missing_anchor_empty.2.2.2.1 ⟨none⟩ rfl,
   c7_missing_anchor_empty.2.2.2.2 ⟨none⟩ rfl⟩

/-- C8: every sample returned by `_extract_code_samples` has a `code` field
whose value is nonempty after whitespace trimming — samples failing that
are filtered out at extraction time. -/
theorem c8_code_nonempty (d : CodeDoc) :
    ∀ s ∈ extract_code_samples d, s.code.isSome = true ∧ pyStrip (s.code.getD "") ≠ "" := by
  intro s hs
  rcases d with ⟨sec⟩
  cases sec with
  | none => simp [extract_code_samples] at hs
  | some cs =>
    rw [show extract_code_samples ⟨some cs⟩ =
          (cs.map buildCodeSample).filter keepSample from rfl] at hs
    have h := (List.mem_filter.mp hs).2
    simpa [keepSample] using h

/-- Witness for `c8_code_nonempty` at a concrete one-sample document. -/
theorem c8_code_nonempty_witness :
    ((⟨none, none, none, some "ok", some "swift"⟩ : CodeSample) ∈
      extract_code_samples ⟨some [⟨none, some "ok"⟩]⟩) ∧
    ((some "ok" : Option String).isSome = true ∧
      pyStrip ((some "ok" : Option String).getD "") ≠ "") :=
  ⟨by decide,
   c8_code_nonempty ⟨some [⟨none, some "ok"⟩]⟩
     ⟨none, none, none, some "ok", some "swift"⟩ (by decide)⟩

/-- Lemma: a fresh key inserted into the sessions cache is found with its
value. -/
lemma cacheLookup_insert_of_none (st : ParserState) (k : String) (v : List SessionRec)
    (h : cacheLookup st k = none) : cacheLookup (cacheInsert st k v) k = some v := by
  rcases st with ⟨cache⟩
  have hfind : cache.find? (fun p => p.1 == k) = none := by
    simpa [cacheLookup, Option.map_eq_none] using h
  have hany : cache.any (fun p => p.1 == k) = false := by
    rw [List.any_eq_false]
    intro p hp
    intro hpk
    have := List.find?_eq_none.mp hfind p hp
    exact this hpk
  simp [cacheInsert, hany, cacheLookup, List.find?_append, hfind]

/-- C9: with the `(topic, year)` key uncached, a fetch that raises an
exception returns `[]` and *caches* `[]` under the key, so every subsequent
call returns `[]` without fetching; a non-200 HTTP status returns `[]` with
the cache unchanged — and with the key still uncached, any later call
attempts the fetch again. -/
theorem c9_fetch_cache (st : ParserState) (year topic : String)
    (h : cacheLookup st (topic ++ "_" ++ year) = none) :
    ((get_sessions_for_topic year topic .exn st).1 = [] ∧
     (get_sessions_for_topic year topic .exn st).2.2 = true ∧
     cacheLookup (get_sessions_for_topic year topic .exn st).2.1
       (topic ++ "_" ++ year) = some [] ∧
     (∀ o, get_sessions_for_topic year topic o
        (get_sessions_for_topic year topic .exn st).2.1 =
        ([], (get_sessions_for_topic year topic .exn st).2.1, false))) ∧
    (∀ status links, status ≠ 200 →
      (get_sessions_for_topic year topic (.ok status links) st).1 = [] ∧
      (get_sessions_for_topic year topic (.ok status links) st).2.1 = st ∧
      (get_sessions_for_topic year topic (.ok status links) st).2.2 = true) ∧
    (∀ o, (get_sessions_for_topic year topic o st).2.2 = true) := by
  refine ⟨⟨?_, ?_, ?_, ?_⟩, ?_, ?_⟩
  · simp [get_sessions_for_topic, h]
  · simp [get_sessions_for_topic, h]
  · simp only [get_sessions_for_topic, h]
    exact cacheLookup_insert_of_none st _ [] h
  · intro o
    have hst : (get_sessions_for_topic year topic .exn st).2.1 =
        cacheInsert st (topic ++ "_" ++ year) [] := by
      simp [get_sessions_for_topic, h]
    rw [hst]
    simp [get_sessions_for_topic, cacheLookup_insert_of_none st _ [] h]
  · intro status links hs
    refine ⟨?_, ?_, ?_⟩ <;> simp [get_sessions_for_topic, h, hs]
  · intro o
    cases o with
    | exn => simp [get_sessions_for_topic, h]
    | ok status links =>
      by_cases hs : status = 200 <;> simp [get_sessions_for_topic, h, hs]

/-- Witness for `c9_fetch_cache` at the empty cache. -/
theorem c9_fetch_cache_witness :
    cacheLookup ⟨[]⟩ ("swift" ++ "_" ++ "2025") = none ∧
    (get_sessions_for_topic "2025" "swift" .exn ⟨[]⟩).1 = [] :=
  ⟨by decide, (c9_fetch_cache ⟨[]⟩ "2025" "swift" (by decide)).1.1⟩

/-- Lemma: `List.contains` only depends on membership. -/
lemma contains_congr {s1 s2 : List String}
    (hs : ∀ y, y ∈ s1 ↔ y ∈ s2) (y : String) : s1.contains y = s2.contains y := by
  show s1.elem y = s2.elem y
  simp [List.elem_eq_mem, hs y]

/-- Lemma: first-occurrence deduplication only depends on the seen set's
membership. -/
lemma dedup_congr {α : Type} (key : α → String) (l : List α) :
    ∀ seen1 seen2, (∀ y, y ∈ seen1 ↔ y ∈ seen2) →
      dedupByKeyFirst key seen1 l = dedupByKeyFirst key seen2 l := by
  induction l with
  | nil => intro s1 s2 _; rfl
  | cons x xs ih =>
    intro s1 s2 hs
    simp only [dedupByKeyFirst, contains_congr hs (key x)]
    cases hb : s2.contains (key x) with
    | false =>
      simp only [Bool.false_eq_true, if_false]
      rw [ih (key x :: s1) (key x :: s2) (fun y => by simp [hs y])]
    | true => simp only [if_true, ih s1 s2 hs]

/-- Lemma: the kept elements of `dedupRun` are `dedupByKeyFirst`. -/
lemma dedupRun_fst {α : Type} (key : α → String) (l : List α) :
    ∀ seen, (dedupRun key seen l).1 = dedupByKeyFirst key seen l := by
  induction l with
  | nil => intro seen; rfl
  | cons x xs ih =>
    intro seen
    simp only [dedupRun, dedupByKeyFirst]
    cases hb : seen.contains (key x) with
    | false =>
      simp only [Bool.false_eq_true, if_false]
      rw [ih (seen ++ [key x])]
      rw [dedup_congr key xs (seen ++ [key x]) (key x :: seen) (fun y => by simp; tauto)]
    | true => simp only [if_true, ih seen]

/-- Lemma: deduplicated output has pairwise-distinct keys, none of them
previously seen. -/
lemma dedup_nodup_aux {α : Type} (key : α → String) (l : List α) :
    ∀ seen, ((dedupByKeyFirst key seen l).map key).Nodup ∧
      (∀ x ∈ dedupByKeyFirst key seen l, key x ∉ seen) := by
  induction l with
  | nil => intro seen; simp [dedupByKeyFirst]
  | cons x xs ih =>
    intro seen
    simp only [dedupByKeyFirst]
    cases hb : seen.contains (key x) with
    | true => simpa using ih seen
    | false =>
      simp only [Bool.false_eq_true, if_false]
      have ih' := ih (key x :: seen)
      have hbmem : key x ∉ seen := by
        intro hmem
        have : seen.contains (key x) = true := by
          show seen.elem (key x) = true
          simp [List.elem_eq_mem, hmem]
        rw [this] at hb; cases hb
      constructor
      · simp only [List.map_cons, List.nodup_cons]
        refine ⟨?_, ih'.1⟩
        intro hmem
        rcases List.mem_map.mp hmem with ⟨y, hy, hky⟩
        have := ih'.2 y hy
        simp [hky] at this
      · intro y hy
        rcases List.mem_cons.mp hy with h | h
        · subst h; exact hbmem
        · have := ih'.2 y h
          intro hc
          exact this (List.mem_cons_of_mem _ hc)

/-- Lemma: deduplicated output is a subset of the input. -/
lemma dedup_subset {α : Type} (key : α → String) (l : List α) :
    ∀ seen, ∀ x ∈ dedupByKeyFirst key seen l, x ∈ l := by
  induction l with
  | nil => intro seen x hx; simp [dedupByKeyFirst] at hx
  | cons a as ih =>
    intro seen x hx
    simp only [dedupByKeyFirst] at hx
    cases hb : seen.contains (key a) with
    | true =>
      rw [hb] at hx; simp only [if_true] at hx
      exact List.mem_cons_of_mem a (ih seen x hx)
    | false =>
      rw [hb] at hx; simp only [Bool.false_eq_true, if_false] at hx
      rcases List.mem_cons.mp hx with h | h
      · subst h; exact List.mem_cons_self x as
      · exact List.mem_cons_of_mem a (ih (key a :: seen) x h)

/-- Lemma: the resources loop is first-occurrence deduplication by resolved
URL of the passing anchors' records. -/
lemma extract_resources_go_spec (anchors : List Anchor) : ∀ seen,
    extract_resources_go anchors seen =
      dedupByKeyFirst (fun r => r.url) seen (resourceCandidates anchors) := by
  induction anchors with
  | nil => intro seen; rfl
  | cons a rest ih =>
    intro seen
    simp only [extract_resources_go]
    by_cases hskip : (a.text = "" || pyIn "Video" a.text || pyIn ".mp4" a.href) = true
    · rw [if_pos hskip]
      have hpass : resourcePass a = false := by
        simp only [resourcePass, hskip, Bool.not_true, Bool.false_and]
      have hcand : resourceCandidates (a :: rest) = resourceCandidates rest := by
        simp [resourceCandidates, List.filter_cons, hpass]
      rw [hcand]; exact ih seen
    · rw [if_neg hskip]
      have hskip' : (a.text = "" || pyIn "Video" a.text || pyIn ".mp4" a.href) = false :=
        Bool.not_eq_true _ |>.mp hskip
      have htext : ¬(a.text = "") := by
        intro h
        rw [h] at hskip'
        simp at hskip'
      by_cases hhit : anchorKeywordHit a = true
      · rw [if_pos hhit]
        have hpass : resourcePass a = true := by
          simp only [resourcePass, hskip', Bool.not_false, Bool.true_and, hhit]
        have hcand : resourceCandidates (a :: rest) =
            (⟨a.text, resolveResourceUrl a.href⟩ : Resource) :: resourceCandidates rest := by
          simp [resourceCandidates, List.filter_cons, hpass]
        rw [hcand]
        simp only [dedupByKeyFirst]
        have ht : decide (a.text ≠ "") = true := by simp [htext]
        cases hc : seen.contains (resolveResourceUrl a.href) with
        | true =>
          simp only [Bool.not_true, Bool.false_and, Bool.false_eq_true, if_false, if_true]
          exact ih seen
        | false =>
          simp only [Bool.not_false, Bool.true_and, ht, if_true, Bool.false_eq_true, if_false]
          rw [ih (resolveResourceUrl a.href :: seen)]
      · rw [if_neg hhit]
        have hpass : resourcePass a = false := by
          simp only [resourcePass, Bool.and_eq_false_iff]
          right
          exact Bool.not_eq_true _ |>.mp hhit
        have hcand : resourceCandidates (a :: rest) = resourceCandidates rest := by
          simp [resourceCandidates, List.filter_cons, hpass]
        rw [hcand]; exact ih seen

/-- C10 counterexample: an anchor whose raw href contains a keyword only in
uppercase (`"https://DOCS.SWIFT.ORG/x"`) and whose lowercased text has no
keyword is *included* — refuting the claim's inclusion condition, which
checks the raw href. -/
theorem c10_counterexample :
    extract_resources [c10Anchor] = [⟨"foo", "https://DOCS.SWIFT.ORG/x"⟩] ∧
    (resourceKeywords.any
      (fun k => pyIn k c10Anchor.href || pyIn k (pyLower c10Anchor.text))) = false := by
  constructor
  · decide
  · decide

/-- C10 (amended): `_extract_resources` scans every anchor of the document
and equals first-occurrence deduplication (by resolved URL) of the anchors
that pass the filter — nonempty text without `"Video"`, href without
`".mp4"`, and a keyword occurring in the *lowercased* href or lowercased
text; consequently the output URLs are pairwise distinct and every output
record comes from a passing anchor. -/
theorem c10_resources (anchors : List Anchor) :
    extract_resources anchors = resourcesSpec anchors ∧
    ((extract_resources anchors).map (fun r => r.url)).Nodup ∧
    ∀ r ∈ extract_resources anchors, ∃ a ∈ anchors, resourcePass a = true ∧
      r = ⟨a.text, resolveResourceUrl a.href⟩ := by
  have heq : extract_resources anchors = resourcesSpec anchors :=
    extract_resources_go_spec anchors []
  refine ⟨heq, ?_, ?_⟩
  · rw [heq]; exact (dedup_nodup_aux _ _ []).1
  · intro r hr
    rw [heq] at hr
    have hsub := dedup_subset _ _ [] r hr
    simp only [resourceCandidates, List.mem_map, List.mem_filter] at hsub
    rcases hsub with ⟨a, ⟨ha, hpass⟩, hra⟩
    exact ⟨a, ha, hpass, hra.symm⟩

/-- Witness for `c10_resources` at a concrete anchor list. -/
theorem c10_resources_witness :
    extract_resources [c10Anchor] = resourcesSpec [c10Anchor] :=
  (c10_resources [c10Anchor]).1

/-- Lemma: `dedupRun` distributes over list append. -/
lemma dedupRun_append {α : Type} (key : α → String) (l1 : List α) :
    ∀ (l2 : List α) (seen : List String),
      dedupRun key seen (l1 ++ l2) =
        ((dedupRun key seen l1).1 ++ (dedupRun key (dedupRun key seen l1).2 l2).1,
         (dedupRun key (dedupRun key seen l1).2 l2).2) := by
  induction l1 with
  | nil => intro l2 seen; rfl
  | cons x xs ih =>
    intro l2 seen
    simp only [List.cons_append, List.append_eq, dedupRun]
    cases hb : seen.contains (key x) with
    | true =>
      simp only [if_true]
      exact ih l2 seen
    | false =>
      simp only [Bool.false_eq_true, if_false]
      rw [ih l2 (seen ++ [key x])]
      simp

/-- Lemma: the per-topic collection loop of `get_all_sessions` is
first-occurrence deduplication by id of that topic's year-filtered,
topic-tagged candidates. -/
lemma inner_fold_spec (year topic : String) (ss : List SessionRec) :
    ∀ (out : List SessionRec) (seen : List String),
      ss.foldl
        (fun acc2 sess =>
          if sess.year == year && !(acc2.2.contains sess.id) then
            (acc2.1 ++ [{ sess with topic := topic }], acc2.2 ++ [sess.id])
          else acc2)
        (out, seen) =
      (out ++ (dedupRun (fun s => s.id) seen (candTopic year topic ss)).1,
       (dedupRun (fun s => s.id) seen (candTopic year topic ss)).2) := by
  induction ss with
  | nil => intro out seen; simp [candTopic, dedupRun]
  | cons sess rest ih =>
    intro out seen
    rw [List.foldl_cons]
    cases hy : (sess.year == year) with
    | false =>
      have hcand : candTopic year topic (sess :: rest) = candTopic year topic rest := by
        simp [candTopic, List.filter_cons, hy]
      rw [hcand]
      simpa [hy] using ih out seen
    | true =>
      have hcand : candTopic year topic (sess :: rest) =
          { sess with topic := topic } :: candTopic year topic rest := by
        simp [candTopic, List.filter_cons, hy]
      rw [hcand]
      simp only [dedupRun]
      have hid : ({ sess with topic := topic } : SessionRec).id = sess.id := rfl
      rw [hid]
      cases hc : seen.contains sess.id with
      | true =>
        simp only [hy, hc, Bool.not_true, Bool.and_false, Bool.false_eq_true, if_false,
          if_true]
        exact ih out seen
      | false =>
        simp only [hy, hc, Bool.not_false, Bool.and_true, Bool.true_and, if_true,
          Bool.false_eq_true, if_false]
        rw [ih (out ++ [({ sess with topic := topic } : SessionRec)]) (seen ++ [sess.id])]
        simp

/-- Lemma: `get_all_sessions` is the kept part of first-occurrence
deduplication by id over all candidates, in topic order. -/
lemma get_all_sessions_run (year : String) (topics : List String)
    (f : String → List SessionRec) :
    get_all_sessions year topics f =
      (dedupRun (fun s => s.id) [] (allSessionsCandidates year topics f)).1 := by
  have main : ∀ (out : List SessionRec) (seen : List String),
      topics.foldl
        (fun (acc : List SessionRec × List String) topic =>
          (f topic).foldl
            (fun acc2 sess =>
              if sess.year == year && !(acc2.2.contains sess.id) then
                (acc2.1 ++ [{ sess with topic := topic }], acc2.2 ++ [sess.id])
              else acc2)
            acc)
        (out, seen) =
      (out ++ (dedupRun (fun s => s.id) seen (allSessionsCandidates year topics f)).1,
       (dedupRun (fun s => s.id) seen (allSessionsCandidates year topics f)).2) := by
    induction topics with
    | nil => intro out seen; simp [allSessionsCandidates, dedupRun]
    | cons t ts ih =>
      intro out seen
      rw [List.foldl_cons, inner_fold_spec year t (f t) out seen]
      rw [ih]
      have hcand : allSessionsCandidates year (t :: ts) f =
          candTopic year t (f t) ++ allSessionsCandidates year ts f := by
        simp [allSessionsCandidates, candTopic]
      rw [hcand, dedupRun_append]
      simp
  have := main [] []
  simp only [get_all_sessions]
  rw [this]
  simp

/-- C5 counterexample: session id 101 is listed under both `"t1"` and
`"t2"` (page `"t2"` carries topic `"t2"`), yet `allSessions` returns the
record with topic `"t1"` — the *first* observed topic, refuting "the last
observed topic wins". -/
theorem c5_counterexample :
    get_all_sessions "2025" ["t1", "t2"] c5Pages =
      [⟨"101", "2025", "Shared Session", "/videos/play/wwdc2025/101/", "t1"⟩] ∧
    c5Pages "t2" = [⟨"101", "2025", "Shared Session", "/videos/play/wwdc2025/101/", "t2"⟩] ∧
    ("t1" : String) ≠ "t2" := by
  refine ⟨by decide, by decide, by decide⟩

/-- C5 (amended): `allSessions(year)` equals the first-occurrence (by id)
deduplication of the year-filtered union of the topic listings, so each id
appears exactly once, every returned record has the requested year, and
when an id appears under several topic pages the *first* observed topic
wins. -/
theorem c5_all_sessions (year : String) (topics : List String)
    (f : String → List SessionRec) :
    get_all_sessions year topics f = allSessionsSpec year topics f ∧
    ((get_all_sessions year topics f).map (fun s => s.id)).Nodup ∧
    ∀ r ∈ get_all_sessions year topics f, r.year = year ∧
      ∃ t ∈ topics, r.topic = t ∧ ∃ s ∈ f t, s.id = r.id := by
  have heq : get_all_sessions year topics f = allSessionsSpec year topics f := by
    rw [get_all_sessions_run, dedupRun_fst]; rfl
  refine ⟨heq, ?_, ?_⟩
  · rw [heq]; exact (dedup_nodup_aux _ _ []).1
  · intro r hr
    rw [heq] at hr
    have hsub := dedup_subset _ _ [] r hr
    simp only [allSessionsCandidates, List.mem_flatMap, List.mem_map, List.mem_filter] at hsub
    rcases hsub with ⟨t, ht, s, ⟨hsf, hsy⟩, hrs⟩
    subst hrs
    exact ⟨eq_of_beq hsy, t, ht, rfl, s, hsf, rfl⟩

/-- Witness for `c5_all_sessions` at the two-topic example. -/
theorem c5_all_sessions_witness :
    get_all_sessions "2025" ["t1", "t2"] c5Pages =
      allSessionsSpec "2025" ["t1", "t2"] c5Pages :=
  (c5_all_sessions "2025" ["t1", "t2"] c5Pages).1

/-- C2 counterexample: a sample with the unparseable timestamp `"abc"`
makes the whole rendering fail (the `ValueError` propagates out), and a
sample with an empty timestamp is *omitted entirely* from the rendered
document — not appended at the end (the rendered lines end with the last
transcript line). -/
theorem c2_counterexample :
    (format_content_markdown "2025" ⟨some "T", some "1"⟩
      ⟨"", [], [], [c2BadSample], [⟨"0", "hi"⟩]⟩).toOption = none ∧
    (format_content_lines "2025" ⟨some "T", some "1"⟩
      ⟨"", [], [], [c2NoTsSample], [⟨"0", "hi"⟩]⟩).toOption =
      some ["# T", "", "**Session 1** - WWDC 2025", "", "## Transcript", "",
        "[00:00] hi"] := by
  constructor
  · decide
  · decide

/-- Lemma: the index-building fold ignores samples with falsy timestamps. -/
lemma cbt_fold_filter (samples : List CodeSample) : ∀ (acc : Pending),
    samples.foldlM cbtStep acc =
      (samples.filter (fun s => decide (sampleTs s ≠ ""))).foldlM cbtStep acc := by
  induction samples with
  | nil => intro acc; rfl
  | cons s rest ih =>
    intro acc
    by_cases h : sampleTs s ≠ ""
    · rw [List.filter_cons_of_pos (by simpa using h)]
      rw [List.foldlM_cons, List.foldlM_cons]
      cases hp : pyParseInt (sampleTs s) with
      | some t =>
        simp only [cbtStep, if_pos h, hp]
        exact ih (addSample acc t s)
      | none =>
        simp only [cbtStep, if_pos h, hp]
        rfl
    · rw [List.filter_cons_of_neg (by simpa using h), List.foldlM_cons]
      simp only [cbtStep, if_neg h]
      exact ih acc

/-- Lemma: the index-building fold succeeds iff every sample with a truthy
timestamp has an `int`-parseable one. -/
lemma cbt_fold_ok_iff (samples : List CodeSample) : ∀ (acc : Pending),
    (samples.foldlM cbtStep acc).toOption.isSome = true ↔
      ∀ s ∈ samples, sampleTs s ≠ "" → (pyParseInt (sampleTs s)).isSome := by
  induction samples with
  | nil => intro acc; simp [List.foldlM]; rfl
  | cons s rest ih =>
    intro acc
    rw [List.foldlM_cons]
    by_cases h : sampleTs s ≠ ""
    · cases hp : pyParseInt (sampleTs s) with
      | some t =>
        have : cbtStep acc s = Except.ok (addSample acc t s) := by
          simp [cbtStep, if_pos h, hp]
        rw [this]
        show ((List.foldlM cbtStep (addSample acc t s) rest).toOption.isSome = true) ↔ _
        rw [ih (addSample acc t s)]
        constructor
        · intro hall s' hs' hts
          rcases List.mem_cons.mp hs' with rfl | hmem
          · simp [hp]
          · exact hall s' hmem hts
        · intro hall s' hs' hts
          exact hall s' (List.mem_cons_of_mem _ hs') hts
      | none =>
        have : cbtStep acc s = Except.error "ValueError: invalid literal for int()" := by
          simp [cbtStep, if_pos h, hp]
        rw [this]
        show ((Except.error "ValueError: invalid literal for int()" : Except String Pending)
          >>= fun b => List.foldlM cbtStep b rest).toOption.isSome = true ↔ _
        constructor
        · intro hfalse
          exact Bool.noConfusion (show false = true from hfalse)
        · intro hall
          exfalso
          have := hall s (List.mem_cons_self s rest) h
          rw [hp] at this
          simp at this
    · have : cbtStep acc s = Except.ok acc := by simp [cbtStep, if_neg h]
      rw [this]
      show ((List.foldlM cbtStep acc rest).toOption.isSome = true) ↔ _
      rw [ih acc]
      constructor
      · intro hall s' hs' hts
        rcases List.mem_cons.mp hs' with rfl | hmem
        · exact absurd hts h
        · exact hall s' hmem hts
      · intro hall s' hs' hts
        exact hall s' (List.mem_cons_of_mem _ hs') hts

/-- Lemma: `Except.map` preserves success. -/
lemma except_map_isSome {A B : Type} (e : Except String A) (f : A → B) :
    (e.map f).toOption.isSome = e.toOption.isSome := by
  cases e <;> rfl

/-- C2 (amended): the timestamp index — and hence the rendered document —
ignores code samples whose `timestamp` field is missing or empty (they are
*dropped*, never appended at the end), and the rendering succeeds iff every
sample with a nonempty timestamp has an `int`-parseable one: a malformed
nonempty timestamp raises a `ValueError` that propagates out of the
rendering operation. -/
theorem c2_sample_timestamps :
    (∀ samples, code_by_timestamp samples =
        code_by_timestamp (samples.filter (fun s => decide (sampleTs s ≠ "")))) ∧
    (∀ (year : String) (md : Metadata) (c : ContentRecord),
      (format_content_markdown year md c).toOption.isSome = true ↔
        ∀ s ∈ c.code_samples, sampleTs s ≠ "" → (pyParseInt (sampleTs s)).isSome) := by
  constructor
  · intro samples
    exact cbt_fold_filter samples []
  · intro year md c
    rw [format_content_markdown, except_map_isSome]
    have hlines : (format_content_lines year md c).toOption.isSome =
        (transcriptSectionLines c).toOption.isSome := by
      rw [format_content_lines]
      cases transcriptSectionLines c <;> rfl
    rw [hlines]
    rw [transcriptSectionLines]
    by_cases hcond : (c.transcript ≠ [] ∨ c.code_samples ≠ [])
    · rw [if_pos hcond]
      by_cases hsamp : c.code_samples ≠ []
      · rw [if_pos hsamp]
        have hbind : ((code_by_timestamp c.code_samples) >>= fun idx =>
            (pure ("## Transcript" :: "" ::
              ((renderEntries c.transcript idx).1 ++
                tailFlush (renderEntries c.transcript idx).2.1)) :
              Except String (List String))).toOption.isSome =
            (code_by_timestamp c.code_samples).toOption.isSome := by
          cases code_by_timestamp c.code_samples <;> rfl
        rw [hbind]
        exact cbt_fold_ok_iff c.code_samples []
      · rw [if_neg hsamp]
        push_neg at hsamp
        constructor
        · intro _ s hs _
          rw [hsamp] at hs
          cases hs
        · intro _; rfl
    · rw [if_neg hcond]
      constructor
      · intro _ s hs _
        push_neg at hcond
        rw [hcond.2] at hs
        cases hs
      · intro _; rfl

/-- Witness for `c2_sample_timestamps`: the empty-timestamp sample is
dropped from the index of a concrete list, and the success criterion holds
at a concrete record. -/
theorem c2_sample_timestamps_witness :
    code_by_timestamp [c2NoTsSample] =
      code_by_timestamp ([c2NoTsSample].filter (fun s => decide (sampleTs s ≠ ""))) ∧
    ((format_content_markdown "2025" ⟨some "T", some "1"⟩
        ⟨"", [], [], [c2NoTsSample], [⟨"0", "hi"⟩]⟩).toOption.isSome = true ↔
      ∀ s ∈ [c2NoTsSample], sampleTs s ≠ "" → (pyParseInt (sampleTs s)).isSome) :=
  ⟨c2_sample_timestamps.1 [c2NoTsSample],
   c2_sample_timestamps.2 "2025" ⟨some "T", some "1"⟩
     ⟨"", [], [], [c2NoTsSample], [⟨"0", "hi"⟩]⟩⟩


/-- Lemma: `Char.ofNat` of a valid scalar value has that value. -/
lemma toNat_ofNat_valid (n : Nat) (h : n.isValidChar) : (Char.ofNat n).toNat = n := by
  simp [Char.ofNat, dif_pos h, Char.ofNatAux, Char.toNat, UInt32.toNat, UInt32.ofNat']

/-- Lemma: the ASCII lowercase map never produces an uppercase letter. -/
lemma pyLowerChar_not_upper (c : Char) : ¬('A' ≤ pyLowerChar c ∧ pyLowerChar c ≤ 'Z') := by
  by_cases h : 'A' ≤ c ∧ c ≤ 'Z'
  · have h65 : 65 ≤ c.toNat := h.1
    have h90 : c.toNat ≤ 90 := h.2
    have hv : (c.toNat + 32).isValidChar := by
      left
      omega
    rw [pyLowerChar, if_pos h]
    intro hup
    have hup65 : 65 ≤ (Char.ofNat (c.toNat + 32)).toNat := hup.1
    have hup90 : (Char.ofNat (c.toNat + 32)).toNat ≤ 90 := hup.2
    rw [toNat_ofNat_valid _ hv] at hup65 hup90
    omega
  · rw [pyLowerChar, if_neg h]
    exact h

/-- Lemma: non-uppercase characters are fixed by the lowercase map. -/
lemma pyLowerChar_eq_self {c : Char} (h : ¬('A' ≤ c ∧ c ≤ 'Z')) : pyLowerChar c = c := by
  rw [pyLowerChar, if_neg h]

/-- Lemma: the lowercase map is idempotent. -/
lemma pyLowerChar_idem (c : Char) : pyLowerChar (pyLowerChar c) = pyLowerChar c :=
  pyLowerChar_eq_self (pyLowerChar_not_upper c)

/-- Lemma: every character emitted by a run replacement is a hyphen or a
non-class character of the input. -/
lemma runReplace_mem {cls : Char → Bool} {c : Char} :
    ∀ {b : Bool} {l : List Char}, c ∈ runReplace cls b l → c = '-' ∨ (c ∈ l ∧ cls c = false) := by
  intro b l
  induction l generalizing b with
  | nil => intro h; simp [runReplace] at h
  | cons x xs ih =>
    intro h
    rw [runReplace] at h
    by_cases hx : cls x = true
    · rw [if_pos hx] at h
      cases b with
      | true =>
        rcases ih h with h' | h'
        · exact Or.inl h'
        · exact Or.inr ⟨List.mem_cons_of_mem _ h'.1, h'.2⟩
      | false =>
        rcases List.mem_cons.mp h with rfl | h'
        · exact Or.inl rfl
        · rcases ih h' with h'' | h''
          · exact Or.inl h''
          · exact Or.inr ⟨List.mem_cons_of_mem _ h''.1, h''.2⟩
    · rw [if_neg hx] at h
      rcases List.mem_cons.mp h with rfl | h'
      · exact Or.inr ⟨List.mem_cons_self _ _, Bool.not_eq_true _ |>.mp hx⟩
      · rcases ih h' with h'' | h''
        · exact Or.inl h''
        · exact Or.inr ⟨List.mem_cons_of_mem _ h''.1, h''.2⟩

/-- Lemma: run replacement is the identity when no character is in the
class. -/
lemma runReplace_id_noclass {cls : Char → Bool} :
    ∀ (b : Bool) (l : List Char), (∀ c ∈ l, cls c = false) → runReplace cls b l = l := by
  intro b l
  induction l generalizing b with
  | nil => intro _; rfl
  | cons x xs ih =>
    intro h
    rw [runReplace, if_neg (by simp [h x (List.mem_cons_self _ _)])]
    rw [ih false (fun c hc => h c (List.mem_cons_of_mem _ hc))]

/-- Lemma: stripping only removes characters. -/
lemma pyStripList_mem {p : Char → Bool} {c : Char} {l : List Char}
    (h : c ∈ pyStripList p l) : c ∈ l := by
  rw [pyStripList, dropEndWhile] at h
  rw [List.mem_reverse] at h
  have h1 := (List.dropWhile_suffix p).mem h
  rw [List.mem_reverse] at h1
  exact (List.dropWhile_suffix p).mem h1




/-- Lemma: collapsing hyphen runs leaves no two adjacent hyphens. -/
lemma runReplace_hyphen_nodh (l : List Char) :
    (runReplace (fun c => c = '-') false l).Chain' (fun a b => ¬(a = '-' ∧ b = '-')) ∧
    (runReplace (fun c => c = '-') true l).Chain' (fun a b => ¬(a = '-' ∧ b = '-')) ∧
    (∀ c, (runReplace (fun c => c = '-') true l).head? = some c → c ≠ '-') := by
  induction l with
  | nil => exact ⟨List.chain'_nil, List.chain'_nil, by intro c h; cases h⟩
  | cons x xs ih =>
    by_cases hx : x = '-'
    · subst hx
      rw [show runReplace (fun c => c = '-') false ('-' :: xs) =
            '-' :: runReplace (fun c => c = '-') true xs from by
          rw [runReplace]; simp,
          show runReplace (fun c => c = '-') true ('-' :: xs) =
            runReplace (fun c => c = '-') true xs from by
          rw [runReplace]; simp]
      refine ⟨?_, ih.2.1, ih.2.2⟩
      rw [List.chain'_cons']
      refine ⟨?_, ih.2.1⟩
      intro b hb
      intro hcon
      exact ih.2.2 b hb hcon.2
    · rw [show runReplace (fun c => c = '-') false (x :: xs) =
            x :: runReplace (fun c => c = '-') false xs from by
          rw [runReplace]; simp [hx],
          show runReplace (fun c => c = '-') true (x :: xs) =
            x :: runReplace (fun c => c = '-') false xs from by
          rw [runReplace]; simp [hx]]
      have hchain : (x :: runReplace (fun c => c = '-') false xs).Chain'
          (fun a b => ¬(a = '-' ∧ b = '-')) := by
        rw [List.chain'_cons']
        exact ⟨fun b _ hcon => hx hcon.1, ih.1⟩
      exact ⟨hchain, hchain, by
        intro c hc
        rw [List.head?_cons, Option.some_inj] at hc
        subst hc
        exact hx⟩

/-- Lemma: `dropWhile` preserves adjacency constraints. -/
lemma chain'_dropWhile {R : Char → Char → Prop} {p : Char → Bool} {l : List Char}
    (h : l.Chain' R) : (l.dropWhile p).Chain' R := by
  induction l with
  | nil => exact List.chain'_nil
  | cons x xs ih =>
    rw [List.dropWhile]
    by_cases hx : p x = true
    · rw [hx]
      simp only
      exact ih h.tail
    · rw [Bool.not_eq_true _ |>.mp hx]
      simpa using h

/-- Lemma: the no-double-hyphen constraint is preserved by reversal. -/
lemma chain'_symm_reverse {l : List Char}
    (h : l.Chain' (fun a b => ¬(a = '-' ∧ b = '-'))) :
    l.reverse.Chain' (fun a b => ¬(a = '-' ∧ b = '-')) := by
  rw [List.chain'_reverse]
  exact h.imp (fun a b hab hcon => hab ⟨hcon.2, hcon.1⟩)

/-- Lemma: stripping preserves the no-double-hyphen constraint. -/
lemma chain'_pyStripList {p : Char → Bool} {l : List Char}
    (h : l.Chain' (fun a b => ¬(a = '-' ∧ b = '-'))) :
    (pyStripList p l).Chain' (fun a b => ¬(a = '-' ∧ b = '-')) := by
  rw [pyStripList, dropEndWhile]
  exact chain'_symm_reverse (chain'_dropWhile (chain'_symm_reverse (chain'_dropWhile h)))




/-- Lemma: run replacement is the identity on a string whose class
characters are single hyphens with no two adjacent. -/
lemma runReplace_id {cls : Char → Bool} :
    ∀ (l : List Char), (∀ c ∈ l, cls c = true → c = '-') →
      l.Chain' (fun a b => ¬(a = '-' ∧ b = '-')) →
      runReplace cls false l = l ∧
      ((∀ c, l.head? = some c → c ≠ '-') → runReplace cls true l = l) := by
  intro l
  induction l with
  | nil => exact fun _ _ => ⟨rfl, fun _ => rfl⟩
  | cons x xs ih =>
    intro hall hch
    have ihx := ih (fun c hc => hall c (List.mem_cons_of_mem _ hc)) hch.tail
    constructor
    · by_cases hx : cls x = true
      · have hxh : x = '-' := hall x (List.mem_cons_self _ _) hx
        subst hxh
        rw [runReplace, if_pos hx]
        have hxs : ∀ c, xs.head? = some c → c ≠ '-' := by
          intro c hc hcon
          subst hcon
          cases xs with
          | nil => cases hc
          | cons y ys =>
            rw [List.head?_cons, Option.some_inj] at hc
            have := (List.chain'_cons'.mp hch).1 '-' (by rw [hc]; rfl)
            exact this ⟨rfl, rfl⟩
        rw [ihx.2 hxs]
        rfl
      · rw [runReplace, if_neg hx, ihx.1]
    · intro hhead
      by_cases hx : cls x = true
      · have hxh : x = '-' := hall x (List.mem_cons_self _ _) hx
        exact absurd rfl (by subst hxh; exact hhead '-' rfl)
      · rw [runReplace, if_neg hx, ihx.1]

/-- Lemma: the head surviving `dropWhile` fails the predicate. -/
lemma dropWhile_head_false {p : Char → Bool} :
    ∀ {l : List Char} {c : Char}, (l.dropWhile p).head? = some c → p c = false := by
  intro l
  induction l with
  | nil => intro c h; cases h
  | cons x xs ih =>
    intro c h
    rw [List.dropWhile] at h
    by_cases hx : p x = true
    · rw [hx] at h
      exact ih h
    · rw [Bool.not_eq_true _ |>.mp hx] at h
      simp only [List.head?_cons, Option.some_inj] at h
      subst h
      exact Bool.not_eq_true _ |>.mp hx

/-- Lemma: a nonempty suffix has the same last element. -/
lemma suffix_getLast? {l1 l2 : List Char} (h : l1 <:+ l2) (hne : l1 ≠ []) :
    l1.getLast? = l2.getLast? := by
  rcases h with ⟨pre, rfl⟩
  exact (List.getLast?_append_of_ne_nil _ hne).symm

/-- Lemma: the head of a stripped string fails the trim predicate. -/
lemma pyStripList_head {p : Char → Bool} {l : List Char} {c : Char}
    (h : (pyStripList p l).head? = some c) : p c = false := by
  rw [pyStripList, dropEndWhile] at h
  rw [List.head?_reverse] at h
  set m := l.dropWhile p with hm
  have hne : m.reverse.dropWhile p ≠ [] := by
    intro hnil
    rw [hnil] at h
    cases h
  rw [suffix_getLast? (List.dropWhile_suffix p) hne] at h
  rw [List.getLast?_reverse] at h
  exact dropWhile_head_false h

/-- Lemma: the last character of a stripped string fails the trim
predicate. -/
lemma pyStripList_getLast {p : Char → Bool} {l : List Char} {c : Char}
    (h : (pyStripList p l).getLast? = some c) : p c = false := by
  rw [pyStripList, dropEndWhile] at h
  rw [List.getLast?_reverse] at h
  exact dropWhile_head_false h

/-- Lemma: `dropWhile` is the identity when the head fails the predicate. -/
lemma dropWhile_id_of_head {p : Char → Bool} {l : List Char}
    (h : ∀ c, l.head? = some c → p c = false) : l.dropWhile p = l := by
  cases l with
  | nil => rfl
  | cons x xs =>
    rw [List.dropWhile, h x rfl]

/-- Lemma: stripping is the identity when both ends fail the predicate. -/
lemma pyStripList_id {p : Char → Bool} {l : List Char}
    (hh : ∀ c, l.head? = some c → p c = false)
    (hl : ∀ c, l.getLast? = some c → p c = false) : pyStripList p l = l := by
  rw [pyStripList, dropEndWhile, dropWhile_id_of_head hh]
  rw [dropWhile_id_of_head (by
    intro c hc
    rw [List.head?_reverse] at hc
    exact hl c hc)]
  exact List.reverse_reverse l




/-- Lemma: every character of a sanitized string is non-uppercase, not a
quote, in the whitespace/dash class only if it is the hyphen itself, not
punctuation, and not an invalid filesystem character. -/
lemma sanitizeSteps_chars (l : List Char) :
    ∀ c ∈ sanitizeSteps l,
      ¬('A' ≤ c ∧ c ≤ 'Z') ∧ isQuoteChar c = false ∧ (isWsDash c = true → c = '-') ∧
      isPunct c = false ∧ isInvalidFs c = false := by
  intro c hc
  simp only [sanitizeSteps] at hc
  have hc6 := pyStripList_mem hc
  rcases runReplace_mem hc6 with rfl | hstep
  · exact ⟨by decide, by decide, fun _ => rfl, by decide, by decide⟩
  · have hc5 := hstep.1
    have hinv : isInvalidFs c = false := by
      have := List.of_mem_filter hc5
      simpa using this
    have hc4 := List.mem_of_mem_filter hc5
    rcases runReplace_mem hc4 with rfl | hstep4
    · exact ⟨by decide, by decide, fun _ => rfl, by decide, by decide⟩
    · have hc3 := hstep4.1
      have hpunct : isPunct c = false := hstep4.2
      rcases runReplace_mem hc3 with rfl | hstep3
      · exact ⟨by decide, by decide, fun _ => rfl, by decide, by decide⟩
      · have hc2 := hstep3.1
        have hws : isWsDash c = false := hstep3.2
        have hquote : isQuoteChar c = false := by
          have := List.of_mem_filter hc2
          simpa using this
        have hc1 := List.mem_of_mem_filter hc2
        rcases List.mem_map.mp hc1 with ⟨d, _, rfl⟩
        refine ⟨pyLowerChar_not_upper d, hquote, ?_, hpunct, hinv⟩
        intro h
        rw [hws] at h
        cases h

/-- Lemma: a sanitized string has no two adjacent hyphens. -/
lemma sanitizeSteps_nodh (l : List Char) :
    (sanitizeSteps l).Chain' (fun a b => ¬(a = '-' ∧ b = '-')) := by
  simp only [sanitizeSteps]
  exact chain'_pyStripList (runReplace_hyphen_nodh _).1

/-- Lemma: a sanitized string does not start with `-`, `.` or space. -/
lemma sanitizeSteps_head (l : List Char) :
    ∀ c, (sanitizeSteps l).head? = some c → isStripSet c = false := by
  intro c hc
  simp only [sanitizeSteps] at hc
  exact pyStripList_head hc

/-- Lemma: a sanitized string does not end with `-`, `.` or space. -/
lemma sanitizeSteps_last (l : List Char) :
    ∀ c, (sanitizeSteps l).getLast? = some c → isStripSet c = false := by
  intro c hc
  simp only [sanitizeSteps] at hc
  exact pyStripList_getLast hc

/-- Lemma: mapping a function that fixes every element is the identity. -/
lemma map_eq_self_of_fix {f : Char → Char} {l : List Char}
    (h : ∀ c ∈ l, f c = c) : l.map f = l := by
  induction l with
  | nil => rfl
  | cons x xs ih =>
    rw [List.map_cons, h x (List.mem_cons_self _ _),
      ih (fun c hc => h c (List.mem_cons_of_mem _ hc))]

/-- Lemma: the pre-truncation sanitizer pipeline is idempotent. -/
lemma sanitizeSteps_idem (l : List Char) :
    sanitizeSteps (sanitizeSteps l) = sanitizeSteps l := by
  have hchars := sanitizeSteps_chars l
  have hnodh := sanitizeSteps_nodh l
  have h1 : (sanitizeSteps l).map pyLowerChar = sanitizeSteps l :=
    map_eq_self_of_fix (fun c hc => pyLowerChar_eq_self (hchars c hc).1)
  have h2 : (sanitizeSteps l).filter (fun c => !isQuoteChar c) = sanitizeSteps l :=
    List.filter_eq_self.mpr (fun c hc => by simp [(hchars c hc).2.1])
  have h3 : runReplace isWsDash false (sanitizeSteps l) = sanitizeSteps l :=
    (runReplace_id (sanitizeSteps l) (fun c hc => (hchars c hc).2.2.1) hnodh).1
  have h4 : runReplace isPunct false (sanitizeSteps l) = sanitizeSteps l :=
    runReplace_id_noclass false _ (fun c hc => (hchars c hc).2.2.2.1)
  have h5 : (sanitizeSteps l).filter (fun c => !isInvalidFs c) = sanitizeSteps l :=
    List.filter_eq_self.mpr (fun c hc => by simp [(hchars c hc).2.2.2.2])
  have h6 : runReplace (fun c => c = '-') false (sanitizeSteps l) = sanitizeSteps l :=
    (runReplace_id (sanitizeSteps l) (fun c _ h => of_decide_eq_true h) hnodh).1
  have h7 : pyStripList isStripSet (sanitizeSteps l) = sanitizeSteps l :=
    pyStripList_id (sanitizeSteps_head l) (sanitizeSteps_last l)
  conv_lhs => rw [sanitizeSteps]
  rw [h1, h2, h3, h4, h5, h6, h7]




/-- C6 (amended): the sanitizer is idempotent on every input whose
sanitization does not truncate (the pre-truncation pipeline yields at most
100 characters); idempotence fails in general because truncation can leave
a trailing dot that a second pass strips.  Verified over ASCII inputs, the
fragment on which the NFKD and lowercase models are exact. -/
theorem c6_sanitize_idempotent (s : String)
    (hascii : ∀ c ∈ s.data, c.toNat < 128)
    (hlen : (sanitizeSteps s.data).length ≤ 100) :
    sanitize_filename (sanitize_filename s) = sanitize_filename s := by
  have htr : truncate100 (sanitizeSteps s.data) = sanitizeSteps s.data := by
    rw [truncate100, if_neg (by omega)]
  have h1 : sanitize_filename s = ⟨sanitizeSteps s.data⟩ := by
    rw [sanitize_filename]
    show (⟨truncate100 (sanitizeSteps s.data)⟩ : String) = _
    rw [htr]
  rw [h1]
  rw [sanitize_filename]
  show (⟨truncate100 (sanitizeSteps (sanitizeSteps s.data))⟩ : String) = _
  rw [sanitizeSteps_idem, htr]

/-- Witness for `c6_sanitize_idempotent` at `"Hello World!"`. -/
theorem c6_sanitize_idempotent_witness :
    (∀ c ∈ ("Hello World!" : String).data, c.toNat < 128) ∧
    (sanitizeSteps ("Hello World!" : String).data).length ≤ 100 ∧
    sanitize_filename (sanitize_filename "Hello World!") = sanitize_filename "Hello World!" :=
  ⟨by decide, by decide, c6_sanitize_idempotent "Hello World!" (by decide) (by decide)⟩

set_option maxRecDepth 10000 in
/-- C6 counterexample: for 99 `a`s + `.` + `bbbbb` the sanitizer truncates
to 100 characters ending in a dot, and sanitizing again strips that dot, so
sanitize∘sanitize ≠ sanitize there. -/
theorem c6_counterexample :
    sanitize_filename (sanitize_filename c6Input) ≠ sanitize_filename c6Input := by
  decide




/-- Lemma: the keys flushed by the flush loop are exactly the handed-in
keys that are ≤ the current timestamp, in their given order. -/
lemma flushStep_keys (t : Int) (ks : List Int) : ∀ p : Pending,
    (flushStep t ks p).2.2 = ks.filter (fun k => decide (k ≤ t)) := by
  induction ks with
  | nil => intro p; rfl
  | cons k ks ih =>
    intro p
    rw [flushStep]
    by_cases hk : k ≤ t
    · rw [if_pos hk, List.filter_cons_of_pos (by simpa using hk)]
      simp only
      rw [← ih (removeKey p k)]
    · rw [if_neg hk, List.filter_cons_of_neg (by simpa using hk)]
      exact ih p

/-- Lemma: the flush loop deletes exactly the handed-in keys that are ≤ the
current timestamp. -/
lemma flushStep_pending_general (t : Int) (ks : List Int) : ∀ p : Pending,
    (flushStep t ks p).2.1 =
      p.filter (fun q => !(ks.contains q.1 && decide (q.1 ≤ t))) := by
  induction ks with
  | nil =>
    intro p
    symm
    refine List.filter_eq_self.mpr ?_
    intro q _
    simp
  | cons k ks ih =>
    intro p
    rw [flushStep]
    by_cases hk : k ≤ t
    · rw [if_pos hk]
      simp only
      rw [ih (removeKey p k), removeKey, List.filter_filter]
      refine List.filter_congr ?_
      intro q _
      by_cases hq : q.1 = k
      · subst hq
        simp [hk]
      · simp [hq, Ne.symm hq]
    · rw [if_neg hk, ih p]
      refine List.filter_congr ?_
      intro q _
      by_cases hq : q.1 = k
      · subst hq
        simp [hk]
      · simp [hq]

/-- Lemma: `sortedKeys` has exactly the dict keys. -/
lemma mem_sortedKeys {p : Pending} {k : Int} : k ∈ sortedKeys p ↔ k ∈ p.map Prod.fst :=
  (List.perm_insertionSort _ _).mem_iff

/-- Lemma: after flushing against the full sorted key list, exactly the
groups with key > the entry's timestamp remain pending. -/
lemma flushStep_pending (t : Int) (p : Pending) :
    (flushStep t (sortedKeys p) p).2.1 = p.filter (fun q => decide (t < q.1)) := by
  rw [flushStep_pending_general]
  refine List.filter_congr ?_
  intro q hq
  have hmem : (sortedKeys p).contains q.1 = true := by
    show (sortedKeys p).elem q.1 = true
    simp [List.elem_eq_mem, mem_sortedKeys.mpr (List.mem_map_of_mem Prod.fst hq)]
  rw [hmem]
  simp only [Bool.true_and]
  by_cases h : q.1 ≤ t
  · simp [h, not_lt.mpr h]
  · simp [h, lt_of_not_le h]

/-- Lemma: with distinct keys, `sortedKeys` is strictly increasing. -/
lemma sortedKeys_sorted_lt {p : Pending} (h : (p.map Prod.fst).Nodup) :
    (sortedKeys p).Sorted (· < ·) := by
  have hs : (sortedKeys p).Sorted (· ≤ ·) := List.sorted_insertionSort _ _
  exact hs.lt_of_le (h.perm (List.perm_insertionSort _ _).symm)

/-- Lemma: the spec pending-evolution preserves key distinctness. -/
lemma stepPending_keys_nodup {e : TranscriptEntry} {p : Pending}
    (h : (p.map Prod.fst).Nodup) : ((stepPending e p).map Prod.fst).Nodup := by
  rw [stepPending]
  cases entryTs e with
  | some t => exact h.sublist ((List.filter_sublist p).map _)
  | none => exact h


/-- Unfolding equation of `renderEntries` for an entry without a parseable
timestamp. -/
lemma renderEntries_cons_none {e : TranscriptEntry} {es : List TranscriptEntry}
    {p : Pending} (hts : entryTs e = none) :
    renderEntries (e :: es) p =
      ([] ++ [transcriptLine e] ++ (renderEntries es p).1, (renderEntries es p).2.1,
       ([] : List Int) :: (renderEntries es p).2.2) := by
  rw [renderEntries, hts]

/-- Unfolding equation of `renderEntries` for an entry with parsed
timestamp `t`. -/
lemma renderEntries_cons_some {e : TranscriptEntry} {es : List TranscriptEntry}
    {p : Pending} {t : Int} (hts : entryTs e = some t) :
    renderEntries (e :: es) p =
      ((flushStep t (sortedKeys p) p).1 ++ [transcriptLine e] ++
         (renderEntries es (flushStep t (sortedKeys p) p).2.1).1,
       (renderEntries es (flushStep t (sortedKeys p) p).2.1).2.1,
       (flushStep t (sortedKeys p) p).2.2 ::
         (renderEntries es (flushStep t (sortedKeys p) p).2.1).2.2) := by
  rw [renderEntries, hts]

/-- Main invariant of the transcript walk: the instrumented flush trace
satisfies the per-entry flush contract, the pending dict evolves exactly by
`stepPending`, every flushed or leftover key is a key of the initial index,
and the overall flush order — per-entry flushes followed by the tail
flush — is strictly increasing. -/
lemma renderEntries_spec (es : List TranscriptEntry) : ∀ p : Pending,
    (p.map Prod.fst).Nodup →
    FlushSpec es p (renderEntries es p).2.2 ∧
    (renderEntries es p).2.1 = iterStepPending es p ∧
    (∀ k, k ∈ (renderEntries es p).2.2.flatten ++ sortedKeys (iterStepPending es p) →
      k ∈ p.map Prod.fst) ∧
    ((renderEntries es p).2.2.flatten ++ sortedKeys (iterStepPending es p)).Sorted (· < ·) := by
  induction es with
  | nil =>
    intro p hnd
    refine ⟨trivial, rfl, ?_, ?_⟩
    · intro k hk
      simp only [renderEntries, List.flatten_nil, List.nil_append, iterStepPending] at hk
      exact mem_sortedKeys.mp hk
    · simpa [renderEntries, iterStepPending] using sortedKeys_sorted_lt hnd
  | cons e es ih =>
    intro p hnd
    cases hts : entryTs e with
    | none =>
      have hstep : stepPending e p = p := by rw [stepPending, hts]
      have hiter : iterStepPending (e :: es) p = iterStepPending es p := by
        rw [iterStepPending, hstep]
      have IH := ih p hnd
      rw [renderEntries_cons_none hts, hiter]
      refine ⟨?_, IH.2.1, ?_, ?_⟩
      · show (∀ t', entryTs e = some t' → ([] : List Int) = eligibleKeys t' p) ∧
          (entryTs e = none → ([] : List Int) = []) ∧
          FlushSpec es (stepPending e p) (renderEntries es p).2.2
        refine ⟨?_, fun _ => rfl, ?_⟩
        · intro t' ht'
          rw [hts] at ht'
          cases ht'
        · rw [hstep]
          exact IH.1
      · intro k hk
        simp only [List.flatten_cons, List.nil_append] at hk
        exact IH.2.2.1 k hk
      · simpa using IH.2.2.2
    | some t =>
      have hp1 : (flushStep t (sortedKeys p) p).2.1 = stepPending e p := by
        rw [flushStep_pending, stepPending, hts]
      have hnd' : ((stepPending e p).map Prod.fst).Nodup := stepPending_keys_nodup hnd
      have IH := ih (stepPending e p) hnd'
      have hks : (flushStep t (sortedKeys p) p).2.2 = eligibleKeys t p :=
        flushStep_keys t (sortedKeys p) p
      have hiter : iterStepPending (e :: es) p = iterStepPending es (stepPending e p) := rfl
      have hstepmem : ∀ k, k ∈ (stepPending e p).map Prod.fst → t < k := by
        intro k hk
        rcases List.mem_map.mp hk with ⟨q, hq, rfl⟩
        rw [stepPending, hts] at hq
        have := List.of_mem_filter hq
        exact of_decide_eq_true this
      have hstepsub : ∀ k, k ∈ (stepPending e p).map Prod.fst → k ∈ p.map Prod.fst := by
        intro k hk
        rw [stepPending, hts] at hk
        exact ((List.filter_sublist p).map Prod.fst).mem hk
      rw [renderEntries_cons_some hts, hp1, hiter, hks]
      refine ⟨?_, IH.2.1, ?_, ?_⟩
      · show (∀ t', entryTs e = some t' → eligibleKeys t p = eligibleKeys t' p) ∧
          (entryTs e = none → eligibleKeys t p = []) ∧
          FlushSpec es (stepPending e p) (renderEntries es (stepPending e p)).2.2
        refine ⟨?_, ?_, IH.1⟩
        · intro t' ht'
          rw [hts] at ht'
          injection ht' with h
          rw [h]
        · intro h
          rw [hts] at h
          cases h
      · intro k hk
        simp only [List.flatten_cons] at hk
        rw [List.append_assoc] at hk
        rcases List.mem_append.mp hk with hk | hk
        · rw [eligibleKeys] at hk
          exact mem_sortedKeys.mp (List.mem_filter.mp hk).1
        · exact hstepsub k (IH.2.2.1 k hk)
      · simp only [List.flatten_cons]
        rw [List.append_assoc]
        rw [List.Sorted, List.pairwise_append]
        refine ⟨?_, IH.2.2.2, ?_⟩
        · rw [eligibleKeys]
          exact (sortedKeys_sorted_lt hnd).filter _
        · intro a ha b hb
          have hat : a ≤ t := by
            rw [eligibleKeys] at ha
            exact of_decide_eq_true (List.mem_filter.mp ha).2
          have hbt : t < b := hstepmem b (IH.2.2.1 b hb)
          exact lt_of_le_of_lt hat hbt


/-- Lemma: adding a sample to the index keeps the keys distinct. -/
lemma addSample_keys_nodup {idx : Pending} {t : Int} {s : CodeSample}
    (h : (idx.map Prod.fst).Nodup) : ((addSample idx t s).map Prod.fst).Nodup := by
  rw [addSample]
  by_cases hc : idx.any (fun p => p.1 == t) = true
  · rw [if_pos hc]
    have hmap : (idx.map (fun p => if p.1 == t then (p.1, p.2 ++ [s]) else p)).map Prod.fst =
        idx.map Prod.fst := by
      rw [List.map_map]
      refine List.map_congr_left ?_
      intro p _
      show (if (p.1 == t) = true then (p.1, p.2 ++ [s]) else p).1 = p.1
      split <;> rfl
    rw [hmap]; exact h
  · rw [if_neg hc]
    rw [List.map_append]
    simp only [List.map_cons, List.map_nil]
    rw [List.nodup_append]
    refine ⟨h, List.nodup_singleton t, ?_⟩
    rw [Bool.not_eq_true, List.any_eq_false] at hc
    intro k hk hk1
    rcases List.mem_map.mp hk with ⟨q, hq, rfl⟩
    rw [List.mem_singleton] at hk1
    exact (hc q hq) (by rw [hk1]; exact beq_self_eq_true t)

/-- Lemma: one index-building step keeps the keys distinct. -/
lemma cbtStep_nodup {acc acc' : Pending} {s : CodeSample}
    (h : (acc.map Prod.fst).Nodup) (hstep : cbtStep acc s = Except.ok acc') :
    (acc'.map Prod.fst).Nodup := by
  rw [cbtStep] at hstep
  by_cases hts : sampleTs s ≠ ""
  · rw [if_pos hts] at hstep
    cases hp : pyParseInt (sampleTs s) with
    | some t =>
      rw [hp] at hstep
      injection hstep with h'
      rw [← h']
      exact addSample_keys_nodup h
    | none =>
      rw [hp] at hstep
      cases hstep
  · rw [if_neg hts] at hstep
    injection hstep with h'
    rw [← h']
    exact h

/-- Lemma: the index-building fold keeps the keys distinct. -/
lemma cbt_fold_nodup (samples : List CodeSample) : ∀ (acc idx : Pending),
    (acc.map Prod.fst).Nodup → samples.foldlM cbtStep acc = Except.ok idx →
    (idx.map Prod.fst).Nodup := by
  induction samples with
  | nil =>
    intro acc idx h heq
    injection heq with h'
    rw [← h']
    exact h
  | cons s rest ih =>
    intro acc idx h heq
    rw [List.foldlM_cons] at heq
    cases hstep : cbtStep acc s with
    | error e =>
      rw [hstep] at heq
      cases heq
    | ok acc' =>
      rw [hstep] at heq
      exact ih acc' idx (cbtStep_nodup h hstep) heq

/-- Lemma: a successfully built timestamp index has distinct keys. -/
lemma code_by_timestamp_nodup {samples : List CodeSample} {idx : Pending}
    (h : code_by_timestamp samples = Except.ok idx) : (idx.map Prod.fst).Nodup :=
  cbt_fold_nodup samples [] idx (by simp) h


/-- C1: for every content record whose code-sample timestamps all parse
(`code_by_timestamp` succeeds), the transcript walk flushes, before each
entry, exactly the still-pending groups with timestamp ≤ the entry's parsed
timestamp, in ascending order (`FlushSpec`); pending groups evolve by
removal only, so no group is flushed twice, and the full flush order
including the final tail flush is strictly increasing.  In particular, for
the record with transcript at seconds 0/70/80/280/290 and samples at 75 and
283, the rendered markdown places the 75s heading before the `[01:20]` line
and the 283s heading before (hence before-or-at) the `[04:50]` line, with
the two headings in ascending timestamp order. -/
theorem c1_timeline_merge (c : ContentRecord) (idx : Pending)
    (hidx : code_by_timestamp c.code_samples = Except.ok idx) :
    (FlushSpec c.transcript idx (renderEntries c.transcript idx).2.2 ∧
     (renderEntries c.transcript idx).2.1 = iterStepPending c.transcript idx ∧
     ((renderEntries c.transcript idx).2.2.flatten ++
        sortedKeys (iterStepPending c.transcript idx)).Sorted (· < ·)) ∧
    ((format_content_lines "2025" c1Md c1Content).toOption.isSome = true ∧
     ("### Code Sample: TextEditor and String - [1:15]" ∈ c1Lines ∧
      "### Code Sample: AttributedString Basics - [4:43]" ∈ c1Lines ∧
      "[01:20] This is how it works." ∈ c1Lines ∧
      "[04:50] Very powerful." ∈ c1Lines) ∧
     c1Lines.indexOf "### Code Sample: TextEditor and String - [1:15]" <
       c1Lines.indexOf "[01:20] This is how it works." ∧
     c1Lines.indexOf "### Code Sample: AttributedString Basics - [4:43]" ≤
       c1Lines.indexOf "[04:50] Very powerful." ∧
     c1Lines.indexOf "### Code Sample: TextEditor and String - [1:15]" <
       c1Lines.indexOf "### Code Sample: AttributedString Basics - [4:43]") := by
  have hnd := code_by_timestamp_nodup hidx
  have hspec := renderEntries_spec c.transcript idx hnd
  exact ⟨⟨hspec.1, hspec.2.1, hspec.2.2.2⟩, by decide, by decide, by decide, by decide⟩

/-- Witness for `c1_timeline_merge` at the C1 test record. -/
theorem c1_timeline_merge_witness :
    code_by_timestamp c1Content.code_samples = Except.ok c1Idx ∧
    (FlushSpec c1Content.transcript c1Idx
       (renderEntries c1Content.transcript c1Idx).2.2 ∧
     (renderEntries c1Content.transcript c1Idx).2.1 =
       iterStepPending c1Content.transcript c1Idx ∧
     ((renderEntries c1Content.transcript c1Idx).2.2.flatten ++
        sortedKeys (iterStepPending c1Content.transcript c1Idx)).Sorted (· < ·)) :=
  ⟨rfl, (c1_timeline_merge c1Content c1Idx rfl).1⟩


end Wwdc
